import Mathlib

set_option maxRecDepth 40000

/-!
Verification development for the torrent-rs repository: a shallow embedding of
the bencode codec (`src/bencode`), the 160-bit id algebra (`src/dht/src/id.rs`),
the kademlia routing table (`src/dht/src/routing.rs`), the protocol glue
(`src/dht/src/protocol.rs`) and the DHT storage engine (`src/dht/src/storage.rs`),
together with theorems settling the specification claims about them.

Bytes are modelled as `Nat` values below 256; byte buffers as `List Nat`.
Machine integers (`i64`, `usize`) are modelled as `Int`/`Nat` with explicit
`% 2 ^ 64` where wrap-around matters.
-/

namespace TorrentRs

namespace Bencode

/-- Decode error kinds, from `src/bencode/src/error.rs` (`enum Error`). -/
inductive Error where
  | io
  | eof
  | parseInt
  | parseBytes
  | parseString
  | parseList
  | parseDict
  | invalidChar (b : Nat)
  | expectedChar (b : Nat)
  | depthLimit
  | itemLimit
deriving DecidableEq, Repr

/-- The owning bencode value tree, from `src/bencode/src/value.rs` (`enum Value`).
`String` payloads are raw byte vectors.  `Dict` is a `BTreeMap<String, Value>`:
we model it as an association list kept sorted by byte-lexicographic key order
(Rust `String` ordering is byte-lexicographic over the UTF-8 bytes), keys being
the UTF-8 byte lists of the Rust `String` keys. -/
inductive Value where
  | int (n : Int)
  | str (s : List Nat)
  | list (l : List Value)
  | dict (m : List (List Nat × Value))

/-- Byte-lexicographic comparison of byte lists: the order of Rust `String`
(and of `[u8]`) used by `BTreeMap<String, Value>`. -/
def lexCompare : List Nat → List Nat → Ordering
  | [], [] => .eq
  | [], _ :: _ => .lt
  | _ :: _, [] => .gt
  | x :: xs, y :: ys =>
    match compare x y with
    | .eq => lexCompare xs ys
    | o => o

/-- `BTreeMap::insert` on the sorted association-list model: insert the binding
at its ordered position, replacing an existing binding for an equal key. -/
def btreeInsert (k : List Nat) (v : Value) : List (List Nat × Value) → List (List Nat × Value)
  | [] => [(k, v)]
  | (k2, v2) :: rest =>
    match lexCompare k k2 with
    | .lt => (k, v) :: (k2, v2) :: rest
    | .eq => (k, v) :: rest
    | .gt => (k2, v2) :: btreeInsert k v rest

/-- Decimal digit bytes of a natural number, most significant first
(the bytes `write!` emits for a non-negative integer).  The first argument is
fuel, always called with fuel ≥ the digit count. -/
def natDigitsAux : Nat → Nat → List Nat → List Nat
  | 0, n, acc => (n % 10 + 48) :: acc
  | f + 1, n, acc => if n < 10 then (n + 48) :: acc else natDigitsAux f (n / 10) ((n % 10 + 48) :: acc)

/-- Decimal digit bytes of `n`, most significant first. -/
def natDigits (n : Nat) : List Nat := natDigitsAux n n []

/-- Decimal byte rendering of an `i64`, as `write!(w, "{}", n)` emits it. -/
def intDigits (n : Int) : List Nat :=
  if n < 0 then 45 :: natDigits n.natAbs else natDigits n.toNat

mutual

/-- `Value::encode` from `src/bencode/src/value.rs` (lines 219-262).  The source
drives an explicit work stack of emit-value / emit-key / emit-end tokens; the
same byte sequence is produced here by structural recursion: `i<digits>e` for
integers, `<len>:<bytes>` for strings, `l…e` for lists and `d…e` for dicts with
entries in ascending key order (the `BTreeMap` iteration order). -/
def Value.encode : Value → List Nat
  | .int n => 105 :: (intDigits n ++ [101])
  | .str s => natDigits s.length ++ 58 :: s
  | .list l => 108 :: (encodeItems l ++ [101])
  | .dict m => 100 :: (encodeEntries m ++ [101])

/-- Emit the elements of a list value in order. -/
def encodeItems : List Value → List Nat
  | [] => []
  | v :: rest => v.encode ++ encodeItems rest

/-- Emit the entries of a dict value in (key-sorted) order: each key as a
bencode string followed by its value. -/
def encodeEntries : List (List Nat × Value) → List Nat
  | [] => []
  | (k, v) :: rest => (natDigits k.length ++ 58 :: k) ++ (v.encode ++ encodeEntries rest)

end

/-- Split a buffer at the first occurrence of `stop`: the bytes before it and
the bytes after it, or `none` when `stop` does not occur. -/
def splitAtFirst (stop : Nat) : List Nat → Option (List Nat × List Nat)
  | [] => none
  | b :: rest =>
    if b = stop then some ([], rest)
    else
      match splitAtFirst stop rest with
      | none => none
      | some (pre, post) => some (b :: pre, post)

/-- `Reader::read_until` from `src/bencode/src/reader.rs` (lines 33-46): error
`EOF` on an exhausted buffer, error `ExpectedChar` when the stop byte never
occurs, otherwise the bytes before the stop byte paired with the bytes after
it (the stop byte itself is consumed). -/
def readUntil (stop : Nat) (rem : List Nat) : Except Error (List Nat × List Nat) :=
  match rem with
  | [] => .error .eof
  | _ :: _ =>
    match splitAtFirst stop rem with
    | none => .error (.expectedChar stop)
    | some r => .ok r

/-- `Reader::read_exact` from `src/bencode/src/reader.rs` (lines 54-64).  The
source errors when `curr_idx >= buf.len()` (the remaining buffer is empty) or
when `end_index > buf.len()` (fewer than `len` bytes remain) — note the first
disjunct rejects `len = 0` at the very end of the buffer. -/
def readExact (len : Nat) (rem : List Nat) : Except Error (List Nat × List Nat) :=
  if rem.isEmpty ∨ len > rem.length then .error .eof
  else .ok (rem.take len, rem.drop len)

/-- `to_int` as used by `src/bencode/src/value.rs`: `str::from_utf8` followed by
Rust `i64::from_str` — an optional `+`/`-` sign, at least one decimal digit, no
other characters, and the value must fit in `i64`; any failure is `ParseInt`. -/
def toInt (b : List Nat) : Except Error Int :=
  let signDigits : Int × List Nat :=
    match b with
    | 43 :: rest => (1, rest)
    | 45 :: rest => (-1, rest)
    | _ => (1, b)
  let sign := signDigits.1
  let digits := signDigits.2
  if digits.isEmpty then .error .parseInt
  else if digits.all (fun d => 48 ≤ d ∧ d ≤ 57) then
    let n : Nat := digits.foldl (fun a d => a * 10 + (d - 48)) 0
    let v : Int := sign * n
    if -(2 ^ 63) ≤ v ∧ v ≤ 2 ^ 63 - 1 then .ok v else .error .parseInt
  else .error .parseInt

/-- Is a continuation byte (`0x80..=0xBF`)? -/
def utf8Cont (b : Nat) : Bool := 128 ≤ b ∧ b ≤ 191

/-- UTF-8 validity of a byte list: the check performed by Rust
`String::from_utf8` inside `Value::into_string` (rejecting overlong encodings,
surrogates and values above U+10FFFF). -/
def validUtf8 : List Nat → Bool
  | [] => true
  | b :: rest =>
    if b ≤ 127 then validUtf8 rest
    else if 194 ≤ b ∧ b ≤ 223 then
      match rest with
      | c1 :: r2 => utf8Cont c1 && validUtf8 r2
      | [] => false
    else if b = 224 then
      match rest with
      | c1 :: c2 :: r2 => (160 ≤ c1 ∧ c1 ≤ 191 : Bool) && utf8Cont c2 && validUtf8 r2
      | _ => false
    else if (225 ≤ b ∧ b ≤ 236) ∨ b = 238 ∨ b = 239 then
      match rest with
      | c1 :: c2 :: r2 => utf8Cont c1 && utf8Cont c2 && validUtf8 r2
      | _ => false
    else if b = 237 then
      match rest with
      | c1 :: c2 :: r2 => (128 ≤ c1 ∧ c1 ≤ 159 : Bool) && utf8Cont c2 && validUtf8 r2
      | _ => false
    else if b = 240 then
      match rest with
      | c1 :: c2 :: c3 :: r2 =>
        (144 ≤ c1 ∧ c1 ≤ 191 : Bool) && utf8Cont c2 && utf8Cont c3 && validUtf8 r2
      | _ => false
    else if 241 ≤ b ∧ b ≤ 243 then
      match rest with
      | c1 :: c2 :: c3 :: r2 => utf8Cont c1 && utf8Cont c2 && utf8Cont c3 && validUtf8 r2
      | _ => false
    else if b = 244 then
      match rest with
      | c1 :: c2 :: c3 :: r2 =>
        (128 ≤ c1 ∧ c1 ≤ 143 : Bool) && utf8Cont c2 && utf8Cont c3 && validUtf8 r2
      | _ => false
    else false

/-- Container-stack entries of `Value::decode_with_limits`: the container kind
together with the value-stack depth at which it was opened. -/
inductive Kind where
  | dict (len : Nat)
  | list (len : Nat)
deriving DecidableEq, Repr

/-- Closing a dict: pop value then key repeatedly (the key slot must be a byte
string that is valid UTF-8) and insert into the map, as in the `Kind::Dict`
arm of `Value::decode_with_limits`.  The input is the popped segment of the
value stack in pop order (topmost first). -/
def closeDictPairs : List Value → List (List Nat × Value) → Except Error (List (List Nat × Value))
  | [], m => .ok m
  | v :: .str s :: rest, m =>
    if validUtf8 s then closeDictPairs rest (btreeInsert s v m) else .error .parseDict
  | _, _ => .error .parseDict

/-- The decode loop of `Value::decode_with_limits` from
`src/bencode/src/value.rs` (lines 268-352), as a state machine over the
remaining input `rem`, the container stack `cs` (top first), the value stack
`vs` (top first), and the running item count.  `fuel` is structural fuel; the
wrapper passes `input.length + 1`, which suffices because every iteration
consumes at least one input byte (the fuel-exhaustion branch is unreachable
from the wrapper). -/
def decodeLoop : Nat → List Nat → List Kind → List Value → Nat →
    Option Nat → Option Nat → Except Error Value
  | 0, _, _, _, _, _, _ => .error .eof
  | fuel + 1, rem, cs, vs, items, dl, il =>
    match rem with
    | [] =>
      match cs, vs with
      | [], [v] => .ok v
      | _, _ => .error .eof
    | b :: rest =>
      if b = 101 then
        match cs with
        | .list len :: cs2 =>
          let k := vs.length - len
          decodeLoop fuel rest cs2 (.list (vs.take k).reverse :: vs.drop k) items dl il
        | .dict len :: cs2 =>
          let k := vs.length - len
          if k % 2 ≠ 0 then .error .parseDict
          else
            match closeDictPairs (vs.take k) [] with
            | .error e => .error e
            | .ok m => decodeLoop fuel rest cs2 (.dict m :: vs.drop k) items dl il
        | [] => .error (.invalidChar 101)
      else
        if cs.isEmpty ∧ ¬ vs.isEmpty then .error .eof
        else if (match dl with | some limit => decide (cs.length > limit) | none => false) then
          .error .depthLimit
        else if (match il with | some limit => decide (items > limit) | none => false) then
          .error .itemLimit
        else
          let items := items + 1
          if 48 ≤ b ∧ b ≤ 57 then
            -- move_back, then read the length up to ':' and the payload
            match readUntil 58 (b :: rest) with
            | .error e => .error e
            | .ok (pre, rem2) =>
              match toInt pre with
              | .error e => .error e
              | .ok len =>
                match readExact len.toNat rem2 with
                | .error e => .error e
                | .ok (val, rem3) => decodeLoop fuel rem3 cs (.str val :: vs) items dl il
          else if b = 105 then
            match readUntil 101 rest with
            | .error e => .error e
            | .ok (pre, rem2) =>
              match toInt pre with
              | .error e => .error e
              | .ok n => decodeLoop fuel rem2 cs (.int n :: vs) items dl il
          else if b = 108 then decodeLoop fuel rest (.list vs.length :: cs) vs items dl il
          else if b = 100 then decodeLoop fuel rest (.dict vs.length :: cs) vs items dl il
          else .error (.invalidChar b)

/-- `Value::decode_with_limits` (src/bencode/src/value.rs lines 268-352). -/
def Value.decodeWithLimits (bytes : List Nat) (depthLimit itemLimit : Option Nat) :
    Except Error Value :=
  decodeLoop (bytes.length + 1) bytes [] [] 0 depthLimit itemLimit

/-- `Value::decode` (src/bencode/src/value.rs lines 264-266): decode with no
limits. -/
def Value.decode (bytes : List Nat) : Except Error Value :=
  Value.decodeWithLimits bytes none none

end Bencode

namespace Dht

/-- A 160-bit node id from `src/dht/src/id.rs` (`struct Id([u8; 20])`): a list
of 20 bytes, most significant first. -/
abbrev Id := List Nat

/-- Well-formedness of an id: 20 bytes, each below 256. -/
def IdWF (a : Id) : Prop := a.length = 20 ∧ ∀ b ∈ a, b < 256

instance (a : Id) : Decidable (IdWF a) := by unfold IdWF; infer_instance

/-- The all-zero id (`[0; 20]`, `RoutingTable::new` lower bound). -/
def idZero : Id := List.replicate 20 0

/-- The all-ones id (`[0xFF; 20]`, `RoutingTable::new` upper bound). -/
def idOnes : Id := List.replicate 20 255

/-- Byte-wise XOR of two ids (`impl BitXor for &Id`). -/
def idXor (a b : Id) : Id := List.zipWith (fun x y => x ^^^ y) a b

/-- The value of an id as a natural number (big-endian base-256). -/
def idNat (a : Id) : Nat := a.foldl (fun acc b => acc * 256 + b) 0

/-- The derived `Ord` on `Id` is lexicographic over the 20 bytes; on equal
length byte lists this coincides with comparison of the big-endian values,
which is the form used here. -/
def idLt (a b : Id) : Prop := idNat a < idNat b

/-- Non-strict version of `idLt`. -/
def idLe (a b : Id) : Prop := idNat a ≤ idNat b

instance (a b : Id) : Decidable (idLt a b) := inferInstanceAs (Decidable (_ < _))
instance (a b : Id) : Decidable (idLe a b) := inferInstanceAs (Decidable (_ ≤ _))

/-- The inner loop of `Id::dist_to`: count the leading zero bits of one byte by
shifting left (`v <<= 1` on `u8` wraps modulo 256) until bit 7 is set.  First
argument is fuel; the source loop runs at most 7 times for a non-zero byte and
the caller only reaches it with a non-zero byte (for `0` the source loop would
not terminate; with fuel 8 this returns 8, an unreachable difference). -/
def byteClzAux : Nat → Nat → Nat
  | 0, _ => 0
  | f + 1, v => if v &&& 128 = 0 then byteClzAux f ((v <<< 1) % 256) + 1 else 0

/-- Leading-zero count of a single byte, as `Id::dist_to` computes it. -/
def byteClz (v : Nat) : Nat := byteClzAux 8 v

/-- The byte loop of `Id::dist_to` (src/dht/src/id.rs lines 54-73): accumulate
8 per zero byte, stop at the first non-zero byte adding its leading-zero count
(a `0xFF` byte breaks immediately adding nothing). -/
def clzBytes : List Nat → Nat
  | [] => 0
  | b :: rest =>
    if b = 0 then 8 + clzBytes rest
    else if b = 255 then 0
    else byteClz b

/-- `Id::dist_to` (src/dht/src/id.rs lines 54-73): `SIZE * 8 - zeros`, the
number of significant bits of the XOR distance. -/
def Id.distTo (a b : Id) : Nat := 20 * 8 - clzBytes (idXor a b)

/-- Bit length of a 160-bit natural number (fuel-driven; `bitLenAux 160`
handles every value below `2 ^ 160`). -/
def bitLenAux : Nat → Nat → Nat
  | 0, _ => 0
  | f + 1, n => if n = 0 then 0 else bitLenAux f (n / 2) + 1

/-- The number of leading zero bits of a value below `2 ^ 160` viewed as a
160-bit quantity — the `leading_zeros` of the specification's
`distance_exp(a, b) = max(0, 159 - leading_zeros(distance(a, b)))`. -/
def leadingZeros160 (n : Nat) : Nat := 160 - bitLenAux 160 n

/-- `Id::at_dist` (src/dht/src/id.rs lines 34-52): XOR the id with a mask whose
low `bits` bits are set, built byte-wise as the source does.  Returns `none`
where the source panics: the `assert!(bits < SIZE * 8)` for `bits ≥ 160`, and
the out-of-range `buf[idx]` write when `bits = 0` (then `idx = 20`). -/
def Id.atDist (a : Id) (bits : Nat) : Option Id :=
  if bits < 160 then
    let idx := (160 - bits) / 8
    if idx < 20 then
      let clearBits := 8 - bits % 8
      let byte := if clearBits < 8 then 255 >>> clearBits else 255
      let mask : Id := List.replicate idx 0 ++ byte :: List.replicate (20 - idx - 1) 255
      some (idXor a mask)
    else none
  else none

/-! The kademlia routing table, from `src/dht/src/routing.rs` and
`src/dht/src/node.rs`.  Timestamps (`last_updated`, used only by
`stale_buckets`) are omitted: no claim concerns staleness. -/

/-- A contact, from `src/dht/src/node.rs` (`struct Node`): an id plus an
optional `(IpAddr, u16)` endpoint (the address is abstracted to a number). -/
structure Node where
  id : Id
  addr : Option (Nat × Nat)
deriving DecidableEq, Repr

/-- `BTreeMap::contains_key` on the sorted association-list model of
`BTreeMap<Rc<Id>, Rc<Node>>`. -/
def containsKey (m : List (Id × Node)) (k : Id) : Bool := m.any (fun kv => kv.1 = k)

/-- `BTreeMap::insert` on the sorted association-list model (keys ordered by
the lexicographic = big-endian-value order of ids). -/
def btreeInsertNode (k : Id) (v : Node) : List (Id × Node) → List (Id × Node)
  | [] => [(k, v)]
  | (k2, v2) :: rest =>
    match compare (idNat k) (idNat k2) with
    | .lt => (k, v) :: (k2, v2) :: rest
    | .eq => (k, v) :: rest
    | .gt => (k2, v2) :: btreeInsertNode k v rest

/-- A bucket, from `src/dht/src/routing.rs` (`struct Bucket`): an inclusive id
range, the primary node map, the replacement (`extra_nodes`) map and the
bucket size `ksize` (`last_updated` omitted, see above). -/
structure Bucket where
  lower : Id
  upper : Id
  nodes : List (Id × Node)
  extraNodes : List (Id × Node)
  ksize : Nat
deriving DecidableEq, Repr

/-- `Bucket::new`. -/
def Bucket.new (lower upper : Id) (ksize : Nat) : Bucket :=
  { lower, upper, nodes := [], extraNodes := [], ksize }

/-- `Bucket::add_node` (src/dht/src/routing.rs lines 158-166): insert into the
primary map when the id is already present or there is room, returning `true`;
otherwise insert into the replacement map and return `false`. -/
def Bucket.addNode (b : Bucket) (node : Node) : Bucket × Bool :=
  if containsKey b.nodes node.id ∨ b.nodes.length < b.ksize then
    ({ b with nodes := btreeInsertNode node.id node b.nodes }, true)
  else
    ({ b with extraNodes := btreeInsertNode node.id node b.extraNodes }, false)

/-- `Bucket::is_new_node` (src/dht/src/routing.rs lines 188-190): literally
`self.nodes.contains_key(&node.id)` — true when the node IS present. -/
def Bucket.isNewNode (b : Bucket) (node : Node) : Bool := containsKey b.nodes node.id

/-- `Bucket::has_in_range` (src/dht/src/routing.rs lines 192-194):
`lower <= id <= upper`, both bounds inclusive. -/
def Bucket.hasInRange (b : Bucket) (node : Node) : Bool :=
  decide (idLe b.lower node.id) && decide (idLe node.id b.upper)

/-- `Bucket::depth` (src/dht/src/routing.rs lines 200-206): the maximum
`dist_to` from the all-ones id to any primary node id. -/
def Bucket.depth (b : Bucket) : Nat :=
  b.nodes.foldl (fun acc kv => max (Id.distTo idOnes kv.2.id) acc) 0

/-- `Bucket::split` (src/dht/src/routing.rs lines 139-156): `distance` is
`lower.dist_to(upper)`, the middle id is `lower.at_dist(distance / 2)`, the
right bucket starts at `middle.at_dist(1)`, and the primary plus replacement
nodes are redistributed by `node.id <= middle`.  `none` models the panics of
`at_dist`. -/
def Bucket.split (b : Bucket) : Option (Bucket × Bucket) :=
  let distance := Id.distTo b.lower b.upper
  match Id.atDist b.lower (distance / 2) with
  | none => none
  | some middle =>
    match Id.atDist middle 1 with
    | none => none
    | some rlower =>
      let start : Bucket × Bucket :=
        (Bucket.new b.lower middle b.ksize, Bucket.new rlower b.upper b.ksize)
      some ((b.nodes ++ b.extraNodes).foldl
        (fun lr kv =>
          if idNat kv.2.id ≤ idNat middle then ((lr.1.addNode kv.2).1, lr.2)
          else (lr.1, (lr.2.addNode kv.2).1))
        start)

/-- The routing table, from `src/dht/src/routing.rs` (`struct RoutingTable`):
the own node, the bucket size, and the bucket sequence. -/
structure RoutingTable where
  node : Node
  ksize : Nat
  buckets : List Bucket
deriving DecidableEq, Repr

/-- `RoutingTable::new`: a single bucket covering `[00…00, FF…FF]`. -/
def RoutingTable.new (node : Node) (ksize : Nat) : RoutingTable :=
  { node, ksize, buckets := [Bucket.new idZero idOnes ksize] }

/-- `RoutingTable::bucket_index_of` (src/dht/src/routing.rs lines 92-99): the
first bucket with `node.id < b.upper` (strict), `none` where the source
`.unwrap()` panics (the source comment claims "A node always has a bucket"). -/
def RoutingTable.bucketIndexOf (t : RoutingTable) (node : Node) : Option Nat :=
  t.buckets.findIdx? (fun b => decide (idLt node.id b.upper))

/-- `RoutingTable::bucket_of` (src/dht/src/routing.rs lines 101-103): same
strict `node.id < b.upper` search returning the bucket. -/
def RoutingTable.bucketOf (t : RoutingTable) (node : Node) : Option Bucket :=
  t.buckets.find? (fun b => decide (idLt node.id b.upper))

/-- `RoutingTable::is_new_node` (src/dht/src/routing.rs lines 46-48), `none`
when `bucket_of` panics. -/
def RoutingTable.isNewNode (t : RoutingTable) (node : Node) : Option Bool :=
  (t.bucketOf node).map (fun b => b.isNewNode node)

/-- `RoutingTable::split_bucket` (src/dht/src/routing.rs lines 28-32):
`buckets[index] = left; buckets.insert(index, right)` — note the right half is
inserted BEFORE the left half. -/
def RoutingTable.splitBucket (t : RoutingTable) (index : Nat) : Option RoutingTable :=
  match t.buckets.get? index with
  | none => none
  | some b =>
    match b.split with
    | none => none
    | some lr =>
      some { t with buckets := (t.buckets.set index lr.1).insertIdx index lr.2 }

/-- `RoutingTable::add_contact` (src/dht/src/routing.rs lines 50-63).  The
first argument is structural fuel for the split-and-retry recursion (the
source recursion carries no bound; no claim theorem evaluates past the fuel).
`none` models the `unwrap` panic of `bucket_index_of`. -/
def RoutingTable.addContactAux : Nat → RoutingTable → Node → Option RoutingTable
  | 0, t, _ => some t
  | fuel + 1, t, node =>
    match t.bucketIndexOf node with
    | none => none
    | some index =>
      match t.buckets.get? index with
      | none => none
      | some bucket =>
        let r := bucket.addNode node
        let t2 : RoutingTable := { t with buckets := t.buckets.set index r.1 }
        if r.2 then some t2
        else if r.1.hasInRange t.node || r.1.depth % 5 ≠ 0 then
          match t2.splitBucket index with
          | none => none
          | some t3 => RoutingTable.addContactAux fuel t3 node
        else some t2

/-- `RoutingTable::add_contact` with the fuel wrapper. -/
def RoutingTable.addContact (t : RoutingTable) (node : Node) : Option RoutingTable :=
  RoutingTable.addContactAux 161 t node

/-- The protocol glue state, from `src/dht/src/protocol.rs` (`struct Protocol`):
the routing table plus the keys of the kademlia `Storage` (whose definition is
not under `src/`; the welcome loop only iterates its keys read-only). -/
structure Protocol where
  router : RoutingTable
  storageKeys : List (List Nat)
deriving DecidableEq, Repr

/-- `Protocol::welcome_if_new` (src/dht/src/protocol.rs lines 32-55) as a state
transformer: return unchanged when `!router.is_new_node(node)`; otherwise the
per-key loop computes digests and neighbour sets and would emit store RPCs
(`TODO` in the source, so it performs no state mutation), then
`router.add_contact(node)` runs.  `none` models the `bucket_of`/
`bucket_index_of` unwrap panics. -/
def Protocol.welcomeIfNew (p : Protocol) (node : Node) : Option Protocol :=
  match p.router.isNewNode node with
  | none => none
  | some isNew =>
    if !isNew then some p
    else
      match p.router.addContact node with
      | none => none
      | some r2 => some { p with router := r2 }

/-! The storage engine, from `src/dht/src/storage.rs`, with its settings from
`src/dht/src/settings.rs` and the bloom filter from
`src/common/src/bloom_filter.rs`. -/

/-- A 160-bit storage key (`type NodeId` of the storage revision, a
`Sha1Hash`): 20 bytes, most significant first, like `Id`. -/
abbrev NodeId := List Nat

/-- `DhtSettings` (src/dht/src/settings.rs) with the `Default` values. -/
structure DhtSettings where
  maxPeersReply : Nat := 100
  searchBranching : Nat := 5
  maxFailCount : Nat := 20
  maxTorrents : Nat := 2000
  maxDhtItems : Nat := 700
  maxPeers : Nat := 500
  maxTorrentSearchReply : Nat := 20
  restrictRoutingIps : Bool := true
  restrictSearchIps : Bool := true
  extendedRoutingTable : Bool := true
  aggressiveLookups : Bool := true
  privacyLookups : Bool := false
  enforceNodeId : Bool := false
  ignoreDarkInternet : Bool := true
  blockTimeout : Nat := 300
  blockRatelimit : Nat := 5
  readOnly : Bool := false
  itemLifetime : Nat := 0
  uploadRateLimit : Nat := 8000
  sampleInfohashesInterval : Nat := 21600
  maxInfohashesSampleCount : Nat := 20
deriving DecidableEq, Repr

/-- A socket address: address family (IPv4 when `v4`), numeric IP and port.
The flow information and scope id of `SocketAddrV6` are not modelled. -/
structure SocketAddr where
  v4 : Bool
  ip : Nat
  port : Nat
deriving DecidableEq, Repr

/-- `IpAddr` ordering: every V4 address is below every V6 address, numeric
comparison within a family. -/
def ipCompare (a b : SocketAddr) : Ordering :=
  (compare (if a.v4 then 0 else 1) (if b.v4 then 0 else 1)).then (compare a.ip b.ip)

/-- A peer record, from `src/dht/src/storage.rs` (`struct PeerEntry`):
insertion time, socket address and seed flag. -/
structure PeerEntry where
  added : Nat
  addr : SocketAddr
  seed : Bool
deriving DecidableEq, Repr

/-- `PeerEntry::cmp` (src/dht/src/storage.rs lines 102-109): by IP then port,
ignoring `added` and `seed`. -/
def PeerEntry.cmp (a b : PeerEntry) : Ordering :=
  (ipCompare a.addr b.addr).then (compare a.addr.port b.addr.port)

/-- Model of Rust `slice::binary_search` driven by `PeerEntry::cmp`, by its
contract on a sorted slice: `ok` with the index of a matching element, or
`error` with the index where the element could be inserted keeping the order
(on unsorted slices Rust's result is unspecified; this model returns the
leftmost non-`lt` position). -/
def binarySearch : List PeerEntry → PeerEntry → Except Nat Nat
  | [], _ => .error 0
  | p :: rest, q =>
    match PeerEntry.cmp p q with
    | .lt =>
      match binarySearch rest q with
      | .ok i => .ok (i + 1)
      | .error i => .error (i + 1)
    | .eq => .ok 0
    | .gt => .error 0

/-- A torrent record, from `src/dht/src/storage.rs` (`struct TorrentEntry`):
name plus the IPv4 and IPv6 peer lists (kept sorted by `(ip, port)`). -/
structure TorrentEntry where
  name : String := ""
  peers4 : List PeerEntry := []
  peers6 : List PeerEntry := []
deriving DecidableEq, Repr

/-- `HashMap::get` on the association-list model (keys are unique). -/
def mapLookup {α : Type} (k : NodeId) (m : List (NodeId × α)) : Option α :=
  (m.find? (fun kv => kv.1 = k)).map (fun kv => kv.2)

/-- Write back the value of an existing binding (in-place `get_mut` mutation). -/
def mapSet {α : Type} (k : NodeId) (v : α) (m : List (NodeId × α)) : List (NodeId × α) :=
  m.map (fun kv => if kv.1 = k then (k, v) else kv)

/-- `HashMap::remove` on the association-list model: drop the binding. -/
def mapErase {α : Type} (k : NodeId) (m : List (NodeId × α)) : List (NodeId × α) :=
  m.eraseP (fun kv => kv.1 = k)

/-- `DhtStorageCounter` (src/dht/src/storage.rs lines 20-26). -/
structure DhtStorageCounter where
  torrents : Int := 0
  peers : Int := 0
  immutableData : Int := 0
  mutableData : Int := 0
deriving DecidableEq, Repr

/-- `set_bits` of the bloom filter (src/common/src/bloom_filter.rs): two bit
indices from the first four key bytes as 16-bit little-endian words modulo the
bit count. -/
def bloomSet (key : List Nat) (bits : List Nat) : List Nat :=
  let len := bits.length
  let idx1 := (key.getD 0 0 ||| (key.getD 1 0 <<< 8)) % (len * 8)
  let idx2 := (key.getD 2 0 ||| (key.getD 3 0 <<< 8)) % (len * 8)
  let b1 := bits.set (idx1 / 8) (bits.getD (idx1 / 8) 0 ||| (1 <<< (idx1 % 8)))
  b1.set (idx2 / 8) (b1.getD (idx2 / 8) 0 ||| (1 <<< (idx2 % 8)))

/-- `has_bits` of the bloom filter: both derived bits set. -/
def bloomFind (key : List Nat) (bits : List Nat) : Bool :=
  let len := bits.length
  let idx1 := (key.getD 0 0 ||| (key.getD 1 0 <<< 8)) % (len * 8)
  let idx2 := (key.getD 2 0 ||| (key.getD 3 0 <<< 8)) % (len * 8)
  decide (bits.getD (idx1 / 8) 0 &&& (1 <<< (idx1 % 8)) ≠ 0) &&
  decide (bits.getD (idx2 / 8) 0 &&& (1 <<< (idx2 % 8)) ≠ 0)

/-- `DhtImmutableItem` (src/dht/src/storage.rs lines 122-128): stored bytes,
the 128-byte announcer bloom filter, last-seen time and the announcer count. -/
structure DhtImmutableItem where
  value : List Nat
  ips : List Nat := List.replicate 128 0
  lastSeen : Nat := 0
  numAnnouncers : Nat := 0
  size : Nat := 0
deriving DecidableEq, Repr

/-- `DhtImmutableItem::new` (`last_seen: Instant::now()` becomes `now`). -/
def DhtImmutableItem.new (value : List Nat) (now : Nat) : DhtImmutableItem :=
  { value, ips := List.replicate 128 0, lastSeen := now, numAnnouncers := 0, size := 0 }

/-- `DhtImmutableItem::touch_item` (src/dht/src/storage.rs lines 179-186):
refresh `last_seen` and count the announcer when its IP hash is new in the
bloom filter.  `iphash` is the SHA-1 of the source IP
(`Sha1Hash::from_address`, an external digest passed in by the caller). -/
def DhtImmutableItem.touchItem (item : DhtImmutableItem) (iphash : List Nat) (now : Nat) :
    DhtImmutableItem :=
  let item := { item with lastSeen := now }
  if bloomFind iphash item.ips then item
  else { item with ips := bloomSet iphash item.ips, numAnnouncers := item.numAnnouncers + 1 }

/-- Modelled from the spec: `distance_exp(a, b) = max(0, 159 −
leading_zeros(distance(a, b)))` — the bucket exponent (Nat subtraction
realizes the `max(0, ·)` clamp). -/
def distanceExp (a b : NodeId) : Nat := 159 - leadingZeros160 (idNat (idXor a b))

/-- Modelled from the spec: `crate::node::min_distance_exp`, whose defining
module (the `node` module of the storage revision) is not under `src/` — only
its caller `pick_least_imp` is.  Per the spec, the minimum of
`distance_exp(k, id)` over the stored local node ids (callers assert the list
is non-empty; an empty list yields 0 here). -/
def minDistanceExp (k : NodeId) (ids : List NodeId) : Nat :=
  match ids with
  | [] => 0
  | x :: rest => rest.foldl (fun acc i => min acc (distanceExp k i)) (distanceExp k x)

/-- Wrapping 64-bit `usize` subtraction (the release-mode behaviour of
`a - b`). -/
def usizeSub (a b : Nat) : Nat := (a % 2 ^ 64 + (2 ^ 64 - b % 2 ^ 64)) % 2 ^ 64

/-- The `usize` score `num_announcers / 5 - min_distance_exp` computed by
`pick_least_imp` — `usize` arithmetic, so the subtraction wraps. -/
def wscore (ids : List NodeId) (k : NodeId) (announcers : Nat) : Nat :=
  usizeSub (announcers / 5) (minDistanceExp k ids)

/-- `pick_least_imp` (src/dht/src/storage.rs lines 529-541): `min_by` over the
table with the wrapping `usize` score; `min_by` keeps the earlier element on
ties (the iteration order of the underlying `HashMap` is unspecified — the
association list order stands in for it). -/
def pickLeastImp {α : Type} (ids : List NodeId) (numAnn : α → Nat)
    (table : List (NodeId × α)) : Option (NodeId × α) :=
  table.foldl
    (fun acc kv =>
      match acc with
      | none => some kv
      | some best =>
        if wscore ids kv.1 (numAnn kv.2) < wscore ids best.1 (numAnn best.2) then some kv
        else some best)
    none

/-- The in-memory storage state, from `src/dht/src/storage.rs`
(`struct DefaultDhtStorage`): settings reference, counters, local node ids and
the torrent / immutable-item tables (the mutable-item table is omitted: no
claim concerns it). -/
structure DefaultDhtStorage where
  settings : DhtSettings := {}
  counters : DhtStorageCounter := {}
  nodeIds : List NodeId := []
  map : List (NodeId × TorrentEntry) := []
  immutableTable : List (NodeId × DhtImmutableItem) := []

/-- UTF-8 bytes of one character. -/
def charUtf8 (c : Char) : List Nat :=
  let n := c.toNat
  if n < 128 then [n]
  else if n < 2048 then [192 ||| n >>> 6, 128 ||| (n &&& 63)]
  else if n < 65536 then
    [224 ||| n >>> 12, 128 ||| ((n >>> 6) &&& 63), 128 ||| (n &&& 63)]
  else
    [240 ||| n >>> 18, 128 ||| ((n >>> 12) &&& 63), 128 ||| ((n >>> 6) &&& 63),
     128 ||| (n &&& 63)]

/-- UTF-8 bytes of a string (what `Value::with_str` stores). -/
def strUtf8 (s : String) : List Nat := (s.data.map charUtf8).flatten

/-- Big-endian byte rendering of a value on `k` bytes. -/
def natBytesBE : Nat → Nat → List Nat
  | 0, _ => []
  | k + 1, v => natBytesBE k (v / 256) ++ [v % 256]

/-- `detail::write_socket_addr` (src/dht/src/detail.rs): packed IP octets (4
or 16 bytes) followed by the big-endian port. -/
def socketAddrBytes (a : SocketAddr) : List Nat :=
  (if a.v4 then natBytesBE 4 a.ip else natBytesBE 16 a.ip) ++ natBytesBE 2 a.port

/-- `BTreeMap::get` on the sorted association-list dict model. -/
def btreeFind (k : List Nat) : List (List Nat × Bencode.Value) → Option Bencode.Value
  | [] => none
  | (k2, v) :: rest => if Bencode.lexCompare k k2 = .eq then some v else btreeFind k rest

/-- The body of `announce_peer` after the torrent entry `v` is at hand:
store the first 100 characters of a non-empty announced name when the entry
has none, then insert/update the peer in the per-family sorted list (binary
search; duplicates update in place; new peers are dropped at `max_peers`). -/
def announceInto (st : DefaultDhtStorage) (infoHash : NodeId) (v : TorrentEntry)
    (endpoint : SocketAddr) (name : String) (seed : Bool) (now : Nat) : DefaultDhtStorage :=
  let v1 := if name ≠ "" ∧ v.name = "" then { v with name := String.mk (name.data.take 100) }
            else v
  let pv := if endpoint.v4 then v1.peers4 else v1.peers6
  let peer : PeerEntry := { added := now, addr := endpoint, seed := seed }
  let writeBack := fun (pv2 : List PeerEntry) (dp : Int) =>
    let v2 := if endpoint.v4 then { v1 with peers4 := pv2 } else { v1 with peers6 := pv2 }
    { st with
      map := mapSet infoHash v2 st.map,
      counters := { st.counters with peers := st.counters.peers + dp } }
  match binarySearch pv peer with
  | .ok i =>
    if (pv.getD i peer).addr = endpoint then writeBack (pv.set i peer) 0
    else if pv.length ≥ st.settings.maxPeers then writeBack pv 0
    else writeBack (pv.insertIdx i peer) 1
  | .error i =>
    if pv.length ≥ st.settings.maxPeers then writeBack pv 0
    else writeBack (pv.insertIdx i peer) 1

/-- `announce_peer` (src/dht/src/storage.rs lines 344-394).  For an absent
infohash the announce is dropped when the torrent map holds strictly more than
`max_torrents` entries, otherwise a default entry is created first.  `now`
models `Instant::now()`. -/
def DefaultDhtStorage.announcePeer (st : DefaultDhtStorage) (infoHash : NodeId)
    (endpoint : SocketAddr) (name : String) (seed : Bool) (now : Nat) : DefaultDhtStorage :=
  match mapLookup infoHash st.map with
  | some v => announceInto st infoHash v endpoint name seed now
  | none =>
    if st.map.length > st.settings.maxTorrents then st
    else
      let st1 : DefaultDhtStorage := { st with
        counters := { st.counters with torrents := st.counters.torrents + 1 },
        map := st.map ++ [(infoHash, {})] }
      announceInto st1 infoHash {} endpoint name seed now

/-- The selection loop of the non-scrape `get_peers` path: walk the peer list,
skip seeds under `no_seed`, and keep a peer when the `random_usize` draw is
not above the remaining `to_pick`.  `rand` is the stream of draws
(`random_usize(max)` yields `head % max`); the result also returns the unused
remainder of the stream.  `none` models the `iter.next().unwrap()` and
`assert!(candidates >= to_pick)` panics. -/
def samplePeers : List PeerEntry → Nat → Nat → List Nat → Bool → List Bencode.Value →
    Option (List Bencode.Value × List Nat)
  | _, 0, _, rand, _, acc => some (acc, rand)
  | [], _ + 1, _, _, _, _ => none
  | p :: rest, toPick + 1, candidates, rand, noSeed, acc =>
    if noSeed ∧ p.seed then samplePeers rest (toPick + 1) candidates rand noSeed acc
    else if candidates < toPick + 1 then none
    else
      let candidates2 := candidates - 1
      let r := rand.headD 0 % (candidates2 + 1)
      if r > toPick + 1 then samplePeers rest (toPick + 1) candidates2 rand.tail noSeed acc
      else
        samplePeers rest toPick candidates2 rand.tail noSeed
          (acc ++ [.str (socketAddrBytes p.addr)])

/-- `get_peers` (src/dht/src/storage.rs lines 249-342).  `ipHash` is the
external SHA-1 of a packed IP (`Sha1Hash::from_address`); `rand` feeds
`random::random_usize`; `now` models `Instant::now()`.  The outer `Option` is
`none` where the source panics (`get_mut("values").unwrap()`, sampling
asserts); the `Except` carries the early `?` errors; the payload is the
mutated reply dict paired with the returned boolean. -/
def DefaultDhtStorage.getPeers (st : DefaultDhtStorage) (ipHash : Bool × Nat → List Nat)
    (infoHash : NodeId) (noSeed scrape : Bool) (requester : SocketAddr)
    (peers : Bencode.Value) (rand : List Nat) (now : Nat) :
    Option (Except Bencode.Error (Bencode.Value × Bool)) :=
  match mapLookup infoHash st.map with
  | none => some (.ok (peers, decide (st.map.length ≥ st.settings.maxTorrents)))
  | some v =>
    let pv := if requester.v4 then v.peers4 else v.peers6
    -- the value returned after the dict has been filled
    let requesterEntry : PeerEntry := { added := now, addr := requester, seed := false }
    let shouldAdmit : Bool :=
      if pv.length < st.settings.maxPeers then false
      else
        match binarySearch pv requesterEntry with
        | .ok i => decide ((pv.getD i requesterEntry).addr ≠ requester)
        | .error _ => true
    match peers with
    | .dict m =>
      let m1 := if v.name ≠ "" then Bencode.btreeInsert [110] (.str (strUtf8 v.name)) m else m
      if scrape then
        let filters := pv.foldl
          (fun (dls : List Nat × List Nat) p =>
            let h := ipHash (p.addr.v4, p.addr.ip)
            if p.seed then (dls.1, bloomSet h dls.2) else (bloomSet h dls.1, dls.2))
          (List.replicate 256 0, List.replicate 256 0)
        let m2 := Bencode.btreeInsert [66, 70, 112, 101] (.str filters.1) m1
        let m3 := Bencode.btreeInsert [66, 70, 115, 100] (.str filters.2) m2
        some (.ok (.dict m3, shouldAdmit))
      else
        let toPick0 := st.settings.maxPeersReply
        let toPick1 := if ¬ pv.isEmpty ∧ ¬ requester.v4 then toPick0 / 4 else toPick0
        match btreeFind [118, 97, 108, 117, 101, 115] m1 with
        | none => none
        | some vv =>
          match vv with
          | .list pe =>
            let candidates := (pv.filter (fun p => ¬ (noSeed ∧ p.seed))).length
            let toPick := min toPick1 candidates
            match samplePeers pv toPick candidates rand noSeed [] with
            | none => none
            | some picked =>
              let m2 := Bencode.btreeInsert [118, 97, 108, 117, 101, 115]
                (.list (pe ++ picked.1)) m1
              some (.ok (.dict m2, shouldAdmit))
          | _ => some (.error .parseList)
    | _ => some (.error .parseDict)

/-- `put_immutable_item` (src/dht/src/storage.rs lines 413-431): touch an
existing entry; otherwise evict the least important entry when at
`max_dht_items`, insert a fresh entry, and touch it.  `iphash` is the SHA-1 of
the announcing IP; `none` models the `pick_least_imp(..).unwrap()` panic. -/
def DefaultDhtStorage.putImmutableItem (st : DefaultDhtStorage) (target : NodeId)
    (item : List Nat) (iphash : List Nat) (now : Nat) : Option DefaultDhtStorage :=
  match mapLookup target st.immutableTable with
  | some it =>
    some { st with immutableTable := mapSet target (it.touchItem iphash now) st.immutableTable }
  | none =>
    let afterEvict : Option (List (NodeId × DhtImmutableItem) × Int) :=
      if st.immutableTable.length ≥ st.settings.maxDhtItems then
        match pickLeastImp st.nodeIds (fun it => it.numAnnouncers) st.immutableTable with
        | none => none
        | some kv => some (mapErase kv.1 st.immutableTable, st.counters.immutableData - 1)
      else some (st.immutableTable, st.counters.immutableData)
    match afterEvict with
    | none => none
    | some te =>
      let fresh := DhtImmutableItem.new item now
      some { st with
        immutableTable := mapSet target (fresh.touchItem iphash now) (te.1 ++ [(target, fresh)]),
        counters := { st.counters with immutableData := te.2 + 1 } }

end Dht

open Bencode Dht

/-! Definitions supporting the claim theorems (concrete scenario states
and specification-side score/shape functions). -/

/-- The mid id produced by `Bucket::split` of the initial bucket:
`lower XOR (2 ^ 80 - 1)`, i.e. `2 ^ 80 - 1`. -/
def splitMid : Id := List.replicate 10 0 ++ List.replicate 10 255

/-- The right child's lower bound: `mid XOR 1 = 2 ^ 80 - 2`. -/
def splitRightLower : Id := List.replicate 10 0 ++ (List.replicate 9 255 ++ [254])

/-- The own node of the welcome-if-new evaluation. -/
def ownNodeC6 : Node := ⟨List.replicate 20 1, none⟩

/-- A genuinely new contact (not present in the fresh routing table). -/
def newNodeC6 : Node := ⟨List.replicate 20 2, some (99, 1200)⟩

/-- The integer score of the specification:
`score(k) = announcers(k) / 5 − min_i distance_exp(k, node_ids[i])` in exact
integer arithmetic. -/
def intScore (ids : List NodeId) (k : NodeId) (announcers : Nat) : Int :=
  ((announcers / 5 : Nat) : Int) - ((minDistanceExp k ids : Nat) : Int)

/-- Item A of the eviction scenario: 1 announcer, at the local node id. -/
def itemC7A : DhtImmutableItem := { value := [105, 49, 101], numAnnouncers := 1 }

/-- Item B of the eviction scenario: 10 announcers, far from the local id. -/
def itemC7B : DhtImmutableItem := { value := [105, 50, 101], numAnnouncers := 10 }

/-- The eviction scenario state: `max_dht_items = 2`, local node id `00…00`,
target A at `00…00` (distance-exp 0), target B at `FF…FF` (distance-exp 159). -/
def stC7 : DefaultDhtStorage :=
  { settings := { maxDhtItems := 2 },
    nodeIds := [List.replicate 20 0],
    immutableTable := [(List.replicate 20 0, itemC7A), (List.replicate 20 255, itemC7B)] }

/-- `n + 1` nested bencode lists: `nestList 0` is the empty list value. -/
def nestList : Nat → Value
  | 0 => .list []
  | k + 1 => .list [nestList k]

/-- Wrap a value in `k` singleton lists, innermost first (the shape the close
phase of the decoder builds). -/
def wrapLists : Nat → Value → Value
  | 0, v => v
  | k + 1, v => wrapLists k (.list [v])

/-- The family rank used by the `IpAddr` ordering: V4 before V6. -/
def famRank (a : SocketAddr) : Nat := if a.v4 then 0 else 1

/-- The strict `(family, ip, port)` order underlying `PeerEntry::cmp`. -/
def peerBelow (a b : PeerEntry) : Prop :=
  famRank a.addr < famRank b.addr ∨
    (famRank a.addr = famRank b.addr ∧
      (a.addr.ip < b.addr.ip ∨ (a.addr.ip = b.addr.ip ∧ a.addr.port < b.addr.port)))

/-- Sorted, duplicate-free peer list: strictly ascending in `PeerEntry::cmp`. -/
def PeersSorted (l : List PeerEntry) : Prop :=
  l.Pairwise (fun a b => PeerEntry.cmp a b = .lt)

instance (l : List PeerEntry) : Decidable (PeersSorted l) := by
  unfold PeersSorted
  infer_instance

/-- The torrent-map invariant: every stored entry keeps both per-family peer
lists sorted by `(ip, port)` with no duplicates. -/
def StorageSorted (st : DefaultDhtStorage) : Prop :=
  ∀ h e, mapLookup h st.map = some e → PeersSorted e.peers4 ∧ PeersSorted e.peers6

/-- One `announce_peer` invocation (for iterating announce scripts). -/
structure AnnounceCall where
  infoHash : NodeId
  endpoint : SocketAddr
  name : String
  seed : Bool
  now : Nat

/-- Apply a script of `announce_peer` calls in order. -/
def applyAnnounces (calls : List AnnounceCall) (st : DefaultDhtStorage) : DefaultDhtStorage :=
  calls.foldl (fun s c => s.announcePeer c.infoHash c.endpoint c.name c.seed c.now) st

/-- The torrent key of the C2 evaluation. -/
def hashC2 : NodeId := List.replicate 20 3

/-- A state (default settings) holding one torrent entry with empty peer
lists. -/
def stC2 : DefaultDhtStorage := { map := [(hashC2, {})] }

/-- The torrent key of the C8 witness. -/
def hashC8 : NodeId := List.replicate 20 4

/-- A peer announced at time 1. -/
def peerC8 : PeerEntry := ⟨1, ⟨true, 5, 5⟩, false⟩

/-- A torrent entry holding that one IPv4 peer. -/
def entryC8 : TorrentEntry := { peers4 := [peerC8] }

/-- A storage state holding that one entry. -/
def stC8 : DefaultDhtStorage := { map := [(hashC8, entryC8)] }

/-- A state at `max_torrents = 1` capacity with one stored torrent. -/
def stC10 : DefaultDhtStorage :=
  { settings := { maxTorrents := 1 }, map := [(List.replicate 20 4, {})] }

/-! ## Theorems -/

example : Value.decode [105, 49, 48, 48, 101] = .ok (.int 100) := rfl
example : Value.decode [51, 58, 97, 98, 99] = .ok (.str [97, 98, 99]) := rfl
example : Value.decode [108, 105, 49, 101, 48, 58, 101] =
    .ok (.list [.int 1, .str []]) := rfl
example : Value.decode [100, 49, 58, 97, 105, 49, 101, 101] =
    .ok (.dict [([97], .int 1)]) := rfl
example : Value.decode [48, 58] = .error .eof := rfl
example : Value.decode [108, 48, 58, 101] = .ok (.list [.str []]) := rfl
example : Value.decode [105, 49, 101, 105, 50, 101] = .error .eof := rfl

example : idNat (idXor [1, 3] [2, 1]) = 3 * 256 + 2 := rfl
example : Id.distTo idZero idZero = 0 := rfl
example : Id.distTo idZero idOnes = 160 := rfl
example : Id.distTo idZero (128 :: List.replicate 19 0) = 160 := rfl
example : Id.distTo idZero (0 :: 64 :: List.replicate 18 0) = 151 := rfl
example : Id.atDist idZero 6 =
    some (List.replicate 19 0 ++ [63]) := rfl
example : Id.atDist idZero 0 = none := rfl
example : (Id.atDist idZero 80).map idNat = some (2 ^ 80 - 1) := by decide

/-! Lemmas relating the byte-loop of `Id::dist_to` to the bit length of the
big-endian value of the byte list. -/

theorem size_div2_succ {n : Nat} (hn : 0 < n) : Nat.size n = Nat.size (n / 2) + 1 := by
  have hle : Nat.size n ≤ Nat.size (n / 2) + 1 := by
    rw [Nat.size_le]
    have h1 : n / 2 < 2 ^ Nat.size (n / 2) := Nat.lt_size_self _
    have : n ≤ 2 * (n / 2) + 1 := by omega
    calc n ≤ 2 * (n / 2) + 1 := this
    _ < 2 * 2 ^ Nat.size (n / 2) := by omega
    _ = 2 ^ (Nat.size (n / 2) + 1) := by ring
  have hge : Nat.size (n / 2) + 1 ≤ Nat.size n := by
    have : Nat.size (n / 2) < Nat.size n := by
      rw [Nat.lt_size]
      rcases Nat.lt_or_ge n 2 with h2 | h2
      · interval_cases n
        · simp
      · have hh : 0 < n / 2 := by omega
        have hs : 0 < Nat.size (n / 2) := Nat.size_pos.mpr hh
        have h3 : 2 ^ (Nat.size (n / 2) - 1) ≤ n / 2 := by
          by_contra hcon
          push_neg at hcon
          have := Nat.size_le.mpr hcon
          omega
        calc 2 ^ Nat.size (n / 2) = 2 ^ (Nat.size (n / 2) - 1) * 2 := by
              rw [← pow_succ]
              congr 1
              omega
        _ ≤ (n / 2) * 2 := Nat.mul_le_mul_right _ h3
        _ ≤ n := by omega
    omega
  omega

theorem bitLenAux_eq_size : ∀ (f n : Nat), n < 2 ^ f → bitLenAux f n = Nat.size n := by
  intro f
  induction f with
  | zero =>
    intro n hn
    interval_cases n
    simp [bitLenAux]
  | succ f ih =>
    intro n hn
    by_cases h0 : n = 0
    · subst h0; simp [bitLenAux]
    · have hdiv : n / 2 < 2 ^ f := by
        have := Nat.pow_succ 2 f
        omega
      rw [bitLenAux, if_neg h0, ih _ hdiv, ← size_div2_succ (by omega)]

theorem idNat_cons (b : Nat) (bs : List Nat) :
    idNat (b :: bs) = b * 256 ^ bs.length + idNat bs := by
  have key : ∀ (l : List Nat) (a : Nat),
      l.foldl (fun acc x => acc * 256 + x) a =
        a * 256 ^ l.length + l.foldl (fun acc x => acc * 256 + x) 0 := by
    intro l
    induction l with
    | nil => intro a; simp
    | cons x xs ih =>
      intro a
      simp only [List.foldl_cons, List.length_cons]
      rw [ih (a * 256 + x), ih (0 * 256 + x)]
      ring
  show List.foldl (fun acc x => acc * 256 + x) (0 * 256 + b) bs = _
  rw [key bs (0 * 256 + b)]
  simp [idNat]

theorem idNat_lt : ∀ (bs : List Nat), (∀ x ∈ bs, x < 256) → idNat bs < 256 ^ bs.length := by
  intro bs
  induction bs with
  | nil => intro _; simp [idNat]
  | cons b rest ih =>
    intro h
    rw [idNat_cons]
    have hb : b < 256 := h b (by simp)
    have hr : idNat rest < 256 ^ rest.length := ih (fun x hx => h x (by simp [hx]))
    have : (b + 1) * 256 ^ rest.length ≤ 256 * 256 ^ rest.length :=
      Nat.mul_le_mul_right _ (by omega)
    calc b * 256 ^ rest.length + idNat rest
        < b * 256 ^ rest.length + 256 ^ rest.length := by omega
    _ = (b + 1) * 256 ^ rest.length := by ring
    _ ≤ 256 * 256 ^ rest.length := this
    _ = 256 ^ (rest.length + 1) := by ring
    _ = 256 ^ (b :: rest).length := by simp

theorem size_mul_pow_add {h k r : Nat} (hh : 0 < h) (hr : r < 2 ^ k) :
    Nat.size (h * 2 ^ k + r) = Nat.size h + k := by
  have hs : 1 ≤ Nat.size h := Nat.size_pos.mpr hh
  have hub : Nat.size (h * 2 ^ k + r) ≤ Nat.size h + k := by
    rw [Nat.size_le]
    have h1 : h + 1 ≤ 2 ^ Nat.size h := Nat.lt_size_self h
    have h2 : (h + 1) * 2 ^ k ≤ 2 ^ Nat.size h * 2 ^ k :=
      Nat.mul_le_mul_right _ h1
    calc h * 2 ^ k + r < h * 2 ^ k + 2 ^ k := by omega
    _ = (h + 1) * 2 ^ k := by ring
    _ ≤ 2 ^ Nat.size h * 2 ^ k := h2
    _ = 2 ^ (Nat.size h + k) := by rw [← pow_add]
  have hlb : Nat.size h + k ≤ Nat.size (h * 2 ^ k + r) := by
    have hpre : 2 ^ (Nat.size h - 1) ≤ h := by
      by_contra hcon
      push_neg at hcon
      have := Nat.size_le.mpr hcon
      omega
    have : Nat.size h - 1 + k < Nat.size (h * 2 ^ k + r) := by
      rw [Nat.lt_size, pow_add]
      calc 2 ^ (Nat.size h - 1) * 2 ^ k ≤ h * 2 ^ k := Nat.mul_le_mul_right _ hpre
      _ ≤ h * 2 ^ k + r := by omega
    omega
  omega

theorem byteClz_bitLen : ∀ v : Nat, v < 256 → 0 < v → byteClz v + bitLenAux 8 v = 8 := by decide

theorem byteClz_size {v : Nat} (hv : v < 256) (hp : 0 < v) : byteClz v + Nat.size v = 8 := by
  have := byteClz_bitLen v hv hp
  rwa [bitLenAux_eq_size 8 v (by omega)] at this

theorem clzBytes_size : ∀ (bs : List Nat), (∀ x ∈ bs, x < 256) →
    clzBytes bs + Nat.size (idNat bs) = 8 * bs.length := by
  intro bs
  induction bs with
  | nil => intro _; simp [clzBytes, idNat]
  | cons b rest ih =>
    intro h
    have hb : b < 256 := h b (by simp)
    have hrest : ∀ x ∈ rest, x < 256 := fun x hx => h x (by simp [hx])
    by_cases h0 : b = 0
    · subst h0
      have hEq : idNat (0 :: rest) = idNat rest := by
        rw [idNat_cons]; simp
      rw [clzBytes, if_pos rfl, hEq]
      have := ih hrest
      simp only [List.length_cons]
      omega
    · have hclz : clzBytes (b :: rest) = byteClz b := by
        rw [clzBytes, if_neg h0]
        by_cases hff : b = 255
        · subst hff
          simp [byteClz, byteClzAux]
        · rw [if_neg hff]
      have hval : idNat (b :: rest) = b * 2 ^ (8 * rest.length) + idNat rest := by
        rw [idNat_cons]
        congr 1
        rw [show (256 : Nat) = 2 ^ 8 by norm_num, ← pow_mul]
      have hrlt : idNat rest < 2 ^ (8 * rest.length) := by
        have := idNat_lt rest hrest
        rwa [show (256 : Nat) = 2 ^ 8 by norm_num, ← pow_mul] at this
      rw [hclz, hval, size_mul_pow_add (by omega) hrlt]
      have := byteClz_size hb (by omega)
      simp only [List.length_cons]
      omega

theorem zipWith_xor_lt : ∀ (a b : List Nat), (∀ x ∈ a, x < 256) → (∀ x ∈ b, x < 256) →
    ∀ x ∈ List.zipWith (fun x y => x ^^^ y) a b, x < 256 := by
  intro a
  induction a with
  | nil => intro b _ _ x hx; simp at hx
  | cons p ps ih =>
    intro b hp hb x hx
    cases b with
    | nil => simp at hx
    | cons q qs =>
      simp only [List.zipWith_cons_cons, List.mem_cons] at hx
      rcases hx with hx | hx
      · subst hx
        have h1 : p < 2 ^ 8 := by simpa using hp p (by simp)
        have h2 : q < 2 ^ 8 := by simpa using hb q (by simp)
        simpa using Nat.xor_lt_two_pow h1 h2
      · exact ih qs (fun y hy => hp y (by simp [hy])) (fun y hy => hb y (by simp [hy])) x hx

/-- `Id::dist_to` equals the bit length of the XOR distance: `160 - zeros`
where `zeros` is the full 160-bit leading-zero count. -/
theorem distTo_eq_size {a b : Id} (ha : IdWF a) (hb : IdWF b) :
    Id.distTo a b = Nat.size (idNat (idXor a b)) := by
  obtain ⟨hal, hab⟩ := ha
  obtain ⟨hbl, hbb⟩ := hb
  have hlen : (idXor a b).length = 20 := by
    simp [idXor, hal, hbl]
  have hbytes : ∀ x ∈ idXor a b, x < 256 := zipWith_xor_lt a b hab hbb
  have hclz := clzBytes_size (idXor a b) hbytes
  rw [hlen] at hclz
  have hszle : Nat.size (idNat (idXor a b)) ≤ 160 := by
    rw [Nat.size_le]
    have := idNat_lt (idXor a b) hbytes
    rw [hlen] at this
    calc idNat (idXor a b) < 256 ^ 20 := this
    _ = 2 ^ 160 := by norm_num
  unfold Id.distTo
  omega

/-! Claim theorems. -/

/-- **C1.** For every well-formed bencode value, decoding the encoding yields
the value back — including a top-level empty byte string.  The code fails this
at exactly that input: `Value::encode` emits `0:` for the empty string, and
`Value::decode` rejects it with `EOF`, because `Reader::read_exact` errors
whenever `curr_idx >= buf.len()`, even for a zero-length read.  This theorem
evaluates the code at the failing input (inside a list, where the buffer does
not end after `0:`, the empty string decodes fine — second conjunct). -/
theorem c1_roundtrip_fails_on_empty_string :
    Value.decode (Value.str []).encode = .error .eof ∧
    Value.decode (Value.list [.str []]).encode = .ok (.list [.str []]) :=
  ⟨rfl, rfl⟩

/-- **C3.** The claim: splitting `[lower, upper]` yields `left = [lower, mid]`,
`right = [mid + 1, upper]` with `mid = lower + distance(lower, upper) / 2`, and
the children partition the parent.  Evaluating the code on the initial bucket
`[00…00, FF…FF]`: the code computes `mid = lower XOR (2 ^ (dist_to / 2) - 1)
= 2 ^ 80 - 1` (not `2 ^ 159 - 1`) and the right child starts at
`mid XOR 1 = 2 ^ 80 - 2 < mid`, so the children's ranges overlap (both contain
`2 ^ 80 - 2`) — the children do not partition the parent. -/
theorem c3_split_produces_overlapping_children :
    (Bucket.new idZero idOnes 8).split =
      some (Bucket.new idZero splitMid 8, Bucket.new splitRightLower idOnes 8) ∧
    idNat splitRightLower < idNat splitMid ∧
    (Bucket.new idZero splitMid 8).hasInRange ⟨splitRightLower, none⟩ = true ∧
    (Bucket.new splitRightLower idOnes 8).hasInRange ⟨splitRightLower, none⟩ = true ∧
    idNat splitMid ≠ idNat idZero + idNat (idXor idZero idOnes) / 2 := by
  refine ⟨by decide, by decide, by decide, by decide, by decide⟩

/-- **C9.** The claim: every id, including `FF…FF`, lies in some bucket, so the
bucket lookup never panics.  The code searches with the strict comparison
`node.id < b.upper`, so for the id `FF…FF` — which `has_in_range` places inside
the initial bucket — no bucket matches and the `.unwrap()` in
`bucket_index_of` / `bucket_of` panics (`none` here). -/
theorem c9_all_ones_id_has_no_bucket :
    (RoutingTable.new ⟨List.replicate 20 1, none⟩ 8).bucketIndexOf ⟨idOnes, none⟩ = none ∧
    (RoutingTable.new ⟨List.replicate 20 1, none⟩ 8).bucketOf ⟨idOnes, none⟩ = none ∧
    (Bucket.new idZero idOnes 8).hasInRange ⟨idOnes, none⟩ = true := by
  refine ⟨by decide, by decide, by decide⟩

/-- **C6.** The claim: `welcome_if_new(node)` with a genuinely new contact
always ends by calling `add_contact(node)`.  The code checks
`if !self.router.is_new_node(&node) { return; }`, but `Bucket::is_new_node`
returns `self.nodes.contains_key(&node.id)` — true for a KNOWN node — so for a
genuinely new contact the function returns immediately and `add_contact` never
runs: the state is unchanged and the contact is still absent. -/
theorem c6_welcome_if_new_skips_new_contacts :
    Protocol.welcomeIfNew ⟨RoutingTable.new ownNodeC6 8, []⟩ newNodeC6 =
      some ⟨RoutingTable.new ownNodeC6 8, []⟩ ∧
    (RoutingTable.new ownNodeC6 8).isNewNode newNodeC6 = some false := by
  refine ⟨by decide, by decide⟩

/-- **C7 (counterexample).** The claim: the evicted entry minimizes the integer
score `announcers / 5 − min_dist`.  Here `intScore` of B (`10/5 − 159 = −157`)
is far below that of A (`1/5 − 0 = 0`), so the claim predicts B is evicted; but
the code computes the score in `usize` arithmetic where `2 − 159` underflows to
`2 ^ 64 − 157`, so a third put evicts A instead. -/
theorem c7_eviction_uses_wrapping_score :
    ((stC7.putImmutableItem (List.replicate 20 7) [105, 51, 101] (List.replicate 20 9) 5).map
        (fun st =>
          (mapLookup (List.replicate 20 0) st.immutableTable,
           (mapLookup (List.replicate 20 255) st.immutableTable).isSome,
           (mapLookup (List.replicate 20 7) st.immutableTable).isSome))) =
      some (none, true, true) ∧
    intScore [List.replicate 20 0] (List.replicate 20 255) 10 <
      intScore [List.replicate 20 0] (List.replicate 20 0) 1 := by
  refine ⟨by decide, by decide⟩

theorem wrapLists_nestList : ∀ (k j : Nat), wrapLists k (nestList j) = nestList (k + j) := by
  intro k
  induction k with
  | zero => intro j; simp [wrapLists]
  | succ k ih =>
    intro j
    show wrapLists k (.list [nestList j]) = _
    rw [show Value.list [nestList j] = nestList (j + 1) from rfl, ih (j + 1)]
    congr 1
    omega

theorem decodeLoop_close_step (fuel : Nat) (rest : List Nat) (len : Nat) (cs2 : List Kind)
    (vs : List Value) (items : Nat) (dl il : Option Nat) :
    decodeLoop (fuel + 1) (101 :: rest) (Kind.list len :: cs2) vs items dl il =
      decodeLoop fuel rest cs2
        (.list ((vs.take (vs.length - len)).reverse) :: vs.drop (vs.length - len)) items dl il :=
  rfl

theorem decodeLoop_close_phase :
    ∀ (k f : Nat) (v : Value) (items : Nat) (dl il : Option Nat),
      decodeLoop (f + (k + 1)) (List.replicate k 101) (List.replicate k (Kind.list 0)) [v]
          items dl il = .ok (wrapLists k v) := by
  intro k
  induction k with
  | zero => intro f v items dl il; rfl
  | succ k ih =>
    intro f v items dl il
    exact ih f (.list [v]) items dl il

theorem decodeLoop_open_step (fuel : Nat) (rest : List Nat) (cs : List Kind)
    (items limit : Nat) (h2 : ¬ cs.length > limit) :
    decodeLoop (fuel + 1) (108 :: rest) cs [] items (some limit) none =
      decodeLoop fuel rest (Kind.list 0 :: cs) [] (items + 1) (some limit) none := by
  simp [decodeLoop, h2]

theorem decodeLoop_open_phase :
    ∀ (a k f items limit : Nat) (rem2 : List Nat),
      k + a ≤ limit + 1 →
      decodeLoop (a + f) (List.replicate a 108 ++ rem2) (List.replicate k (Kind.list 0)) []
          items (some limit) none =
        decodeLoop f rem2 (List.replicate (k + a) (Kind.list 0)) [] (items + a)
          (some limit) none := by
  intro a
  induction a with
  | zero => intro k f items limit rem2 _; simp
  | succ a ih =>
    intro k f items limit rem2 h
    rw [List.replicate_succ, List.cons_append,
      show a + 1 + f = (a + f) + 1 by omega,
      decodeLoop_open_step (a + f) (List.replicate a 108 ++ rem2) _ items limit
        (by simp; omega),
      show Kind.list 0 :: List.replicate k (Kind.list 0) =
        List.replicate (k + 1) (Kind.list 0) from (List.replicate_succ ..).symm,
      ih (k + 1) f (items + 1) limit rem2 (by omega),
      show k + 1 + a = k + (a + 1) by omega,
      show items + 1 + a = items + (a + 1) by omega]

theorem decodeLoop_depth_fail (fuel : Nat) (rest : List Nat) (k items limit : Nat)
    (hk : k > limit) :
    decodeLoop (fuel + 1) (108 :: rest) (List.replicate k (Kind.list 0)) [] items
        (some limit) none = .error .depthLimit := by
  obtain ⟨k2, rfl⟩ : ∃ k2, k = k2 + 1 := ⟨k - 1, by omega⟩
  rw [List.replicate_succ]
  simp [decodeLoop, hk]

/-- Decoding `n` nested `l` bytes followed by `n` matching `e` bytes under a
depth limit: the decoder checks `c_stack.len() > limit` before pushing a new
container, so up to `limit + 1` nested containers are accepted and the
`limit + 2`-nd fails with `DepthLimit`. -/
theorem decode_nested_lists (n limit : Nat) (hn : 1 ≤ n) :
    Value.decodeWithLimits (List.replicate n 108 ++ List.replicate n 101) (some limit) none =
      if n ≤ limit + 1 then .ok (nestList (n - 1)) else .error .depthLimit := by
  unfold Value.decodeWithLimits
  have hlen : (List.replicate n (108 : Nat) ++ List.replicate n 101).length + 1 = n + (n + 1) := by
    simp only [List.length_append, List.length_replicate]; omega
  by_cases hcmp : n ≤ limit + 1
  · rw [if_pos hcmp, hlen]
    have hopen := decodeLoop_open_phase n 0 (n + 1) 0 limit (List.replicate n 101)
      (by omega)
    simp only [List.replicate_zero, Nat.zero_add] at hopen
    rw [hopen]
    obtain ⟨m, rfl⟩ : ∃ m, n = m + 1 := ⟨n - 1, by omega⟩
    have hclose := decodeLoop_close_phase m 0 (.list []) (m + 1) (some limit) none
    rw [Nat.zero_add] at hclose
    calc decodeLoop (m + 1 + 1) (List.replicate (m + 1) 101)
          (List.replicate (m + 1) (Kind.list 0)) [] (m + 1) (some limit) none
        = decodeLoop (m + 1) (List.replicate m 101)
            (List.replicate m (Kind.list 0)) [.list []] (m + 1) (some limit) none := rfl
      _ = .ok (wrapLists m (.list [])) := hclose
      _ = .ok (nestList (m + 1 - 1)) := by
            rw [show Value.list [] = nestList 0 from rfl, wrapLists_nestList]
            norm_num
  · have hsplit : List.replicate n (108 : Nat) =
        List.replicate (limit + 1) 108 ++ List.replicate (n - (limit + 1)) 108 := by
      rw [← List.replicate_add]; congr 1; omega
    rw [if_neg hcmp, hlen,
      show n + (n + 1) = (limit + 1) + (n + n - limit) by omega,
      hsplit, List.append_assoc]
    have hopen := decodeLoop_open_phase (limit + 1) 0 (n + n - limit) 0 limit
      (List.replicate (n - (limit + 1)) 108 ++ List.replicate n 101) (by omega)
    simp only [List.replicate_zero, Nat.zero_add] at hopen
    rw [hopen]
    obtain ⟨d, hd⟩ : ∃ d, n - (limit + 1) = d + 1 := ⟨n - limit - 2, by omega⟩
    rw [hd, List.replicate_succ, List.cons_append,
      show n + n - limit = (n + n - limit - 1) + 1 by omega]
    exact decodeLoop_depth_fail _ _ _ _ _ (by omega)

/-- **C5 (counterexample).** The claim: with `depth_limit = 1024`, an input of
1025 `l` bytes followed by 1025 `e` bytes fails with `DepthLimit`.  It does
not: the decoder checks `c_stack.len() > limit` BEFORE pushing, so the
1025-th `l` is still accepted (at that moment the stack holds 1024 opens) and
the input decodes successfully. -/
theorem c5_counterexample_1025_nested_lists_decode :
    Value.decodeWithLimits (List.replicate 1025 108 ++ List.replicate 1025 101)
      (some 1024) none = .ok (nestList 1024) := by
  have h := decode_nested_lists 1025 1024 (by norm_num)
  rw [h, if_pos (by norm_num : (1025 : Nat) ≤ 1024 + 1)]

/-- **C5 (amended).** `decode_with_limits` accepts up to `limit + 1` nested
containers: with `depth_limit = 1024`, inputs of 1024 and of 1025 nested
`l`…`e` pairs both decode successfully, and 1026 fails with `DepthLimit`. -/
theorem c5_depth_limit_accepts_limit_plus_one :
    Value.decodeWithLimits (List.replicate 1024 108 ++ List.replicate 1024 101)
        (some 1024) none = .ok (nestList 1023) ∧
    Value.decodeWithLimits (List.replicate 1025 108 ++ List.replicate 1025 101)
        (some 1024) none = .ok (nestList 1024) ∧
    Value.decodeWithLimits (List.replicate 1026 108 ++ List.replicate 1026 101)
        (some 1024) none = .error .depthLimit := by
  refine ⟨?_, ?_, ?_⟩
  · have h := decode_nested_lists 1024 1024 (by norm_num)
    rw [h, if_pos (by norm_num : (1024 : Nat) ≤ 1024 + 1)]
  · have h := decode_nested_lists 1025 1024 (by norm_num)
    rw [h, if_pos (by norm_num : (1025 : Nat) ≤ 1024 + 1)]
  · have h := decode_nested_lists 1026 1024 (by norm_num)
    rw [h, if_neg (by norm_num : ¬ (1026 : Nat) ≤ 1024 + 1)]

/-- **C4 (counterexample).** The claim: `dist_to(a, b)` equals
`max(0, 159 − leading_zeros(a XOR b))` (Nat subtraction realizes the
`max(0, ·)` clamp), so two ids differing in the most significant bit give 159.
The code returns `160 − leading_zeros`, hence 160 at that input. -/
theorem c4_counterexample_msb_pair :
    Id.distTo idZero (128 :: List.replicate 19 0) = 160 ∧
    159 - leadingZeros160 (idNat (idXor idZero (128 :: List.replicate 19 0))) = 159 := by
  refine ⟨by decide, by decide⟩

/-- **C4 (amended).** `Id::dist_to` computes `160 − leading_zeros(a XOR b)`
(the full bit length of the XOR distance): in particular
`dist_to(a, a) = 0` still holds, but ids differing in the most significant
bit are at 160, not 159. -/
theorem c4_dist_to_is_full_bit_length :
    (∀ a b : Id, IdWF a → IdWF b →
        Id.distTo a b = 160 - leadingZeros160 (idNat (idXor a b))) ∧
    Id.distTo idZero (128 :: List.replicate 19 0) = 160 ∧
    Id.distTo idOnes idOnes = 0 := by
  refine ⟨?_, by decide, by decide⟩
  intro a b ha hb
  have hsize := distTo_eq_size ha hb
  have hbytes : ∀ x ∈ idXor a b, x < 256 := zipWith_xor_lt a b ha.2 hb.2
  have hlen : (idXor a b).length = 20 := by simp [idXor, ha.1, hb.1]
  have hlt : idNat (idXor a b) < 2 ^ 160 := by
    have h2 := idNat_lt _ hbytes
    rw [hlen] at h2
    calc idNat (idXor a b) < 256 ^ 20 := h2
    _ = 2 ^ 160 := by norm_num
  have hbit := bitLenAux_eq_size 160 _ hlt
  have hle : Nat.size (idNat (idXor a b)) ≤ 160 := Nat.size_le.mpr hlt
  unfold leadingZeros160
  omega

/-- Witness for C4: the amended equality applied at concrete ids. -/
theorem c4_witness_concrete :
    Id.distTo idZero idOnes = 160 - leadingZeros160 (idNat (idXor idZero idOnes)) :=
  c4_dist_to_is_full_bit_length.1 idZero idOnes (by decide) (by decide)

/-! Order-theoretic facts about `PeerEntry::cmp` and the binary-search model,
used by the peer-list invariant (C8) and the `get_peers` return value (C2). -/

theorem cmp_eq_iff {a b : PeerEntry} :
    PeerEntry.cmp a b = .eq ↔
      a.addr.v4 = b.addr.v4 ∧ a.addr.ip = b.addr.ip ∧ a.addr.port = b.addr.port := by
  unfold PeerEntry.cmp ipCompare
  rcases Nat.lt_trichotomy (famRank a.addr) (famRank b.addr) with hf | hf | hf <;>
    [skip; rw [famRank, famRank] at hf; skip] <;>
    rcases Nat.lt_trichotomy a.addr.ip b.addr.ip with hi | hi | hi <;>
    rcases Nat.lt_trichotomy a.addr.port b.addr.port with hp | hp | hp <;>
    simp_all [famRank, Nat.compare_eq_lt.mpr, Nat.compare_eq_eq.mpr, Nat.compare_eq_gt.mpr,
      Ordering.then] <;>
    first
      | (constructor <;> omega)
      | (intro h; revert hf; split <;> split <;> omega)
      | (revert hf; split <;> split <;> simp_all <;> omega)

theorem cmp_lt_iff {a b : PeerEntry} : PeerEntry.cmp a b = .lt ↔ peerBelow a b := by
  unfold PeerEntry.cmp ipCompare peerBelow famRank
  rcases Nat.lt_trichotomy (if a.addr.v4 then 0 else 1) (if b.addr.v4 then 0 else 1)
      with hf | hf | hf <;>
    rcases Nat.lt_trichotomy a.addr.ip b.addr.ip with hi | hi | hi <;>
    rcases Nat.lt_trichotomy a.addr.port b.addr.port with hp | hp | hp <;>
    simp_all [Nat.compare_eq_lt.mpr, Nat.compare_eq_eq.mpr, Nat.compare_eq_gt.mpr,
      Ordering.then] <;>
    omega

theorem cmp_gt_iff {a b : PeerEntry} : PeerEntry.cmp a b = .gt ↔ peerBelow b a := by
  unfold PeerEntry.cmp ipCompare peerBelow famRank
  rcases Nat.lt_trichotomy (if a.addr.v4 then 0 else 1) (if b.addr.v4 then 0 else 1)
      with hf | hf | hf <;>
    rcases Nat.lt_trichotomy a.addr.ip b.addr.ip with hi | hi | hi <;>
    rcases Nat.lt_trichotomy a.addr.port b.addr.port with hp | hp | hp <;>
    simp_all [Nat.compare_eq_lt.mpr, Nat.compare_eq_eq.mpr, Nat.compare_eq_gt.mpr,
      Ordering.then] <;>
    omega

theorem peerBelow_trans {a b c : PeerEntry} (h1 : peerBelow a b) (h2 : peerBelow b c) :
    peerBelow a c := by
  unfold peerBelow at h1 h2 ⊢
  omega

theorem cmp_of_addr_eq {a b : PeerEntry} (h : a.addr = b.addr) : PeerEntry.cmp a b = .eq :=
  cmp_eq_iff.mpr (by rw [h]; exact ⟨rfl, rfl, rfl⟩)

theorem addr_eq_of_cmp_eq {a b : PeerEntry} (h : PeerEntry.cmp a b = .eq) : a.addr = b.addr := by
  obtain ⟨h1, h2, h3⟩ := cmp_eq_iff.mp h
  cases ha : a.addr
  cases hb : b.addr
  simp_all

theorem cmp_congr_right {p q x : PeerEntry} (h : PeerEntry.cmp p q = .eq) :
    PeerEntry.cmp x p = PeerEntry.cmp x q := by
  have := addr_eq_of_cmp_eq h
  unfold PeerEntry.cmp ipCompare
  rw [this]

theorem cmp_congr_left {p q x : PeerEntry} (h : PeerEntry.cmp p q = .eq) :
    PeerEntry.cmp p x = PeerEntry.cmp q x := by
  have := addr_eq_of_cmp_eq h
  unfold PeerEntry.cmp ipCompare
  rw [this]

theorem binarySearch_ok_bound :
    ∀ (l : List PeerEntry) (q : PeerEntry) (i : Nat), binarySearch l q = .ok i → i < l.length := by
  intro l
  induction l with
  | nil => intro q i h; simp [binarySearch] at h
  | cons p rest ih =>
    intro q i h
    unfold binarySearch at h
    rcases hc : PeerEntry.cmp p q with _ | _ | _ <;> rw [hc] at h
    · rcases hr : binarySearch rest q with j | j <;> rw [hr] at h <;> simp at h
      subst h
      have := ih q j hr
      simp
      omega
    · simp at h; subst h; simp
    · simp at h

theorem binarySearch_err_bound :
    ∀ (l : List PeerEntry) (q : PeerEntry) (i : Nat),
      binarySearch l q = .error i → i ≤ l.length := by
  intro l
  induction l with
  | nil => intro q i h; simp [binarySearch] at h; omega
  | cons p rest ih =>
    intro q i h
    unfold binarySearch at h
    rcases hc : PeerEntry.cmp p q with _ | _ | _ <;> rw [hc] at h
    · rcases hr : binarySearch rest q with j | j <;> rw [hr] at h <;> simp at h
      subst h
      have := ih q j hr
      simp
      omega
    · simp at h
    · simp at h; subst h; omega

theorem binarySearch_ok_get :
    ∀ (l : List PeerEntry) (q : PeerEntry) (i : Nat), binarySearch l q = .ok i →
      ∃ p, l.get? i = some p ∧ PeerEntry.cmp p q = .eq := by
  intro l
  induction l with
  | nil => intro q i h; simp [binarySearch] at h
  | cons p rest ih =>
    intro q i h
    unfold binarySearch at h
    rcases hc : PeerEntry.cmp p q with _ | _ | _ <;> rw [hc] at h
    · rcases hr : binarySearch rest q with j | j <;> rw [hr] at h <;> simp at h
      subst h
      obtain ⟨p2, hget, heq⟩ := ih q j hr
      exact ⟨p2, by simpa using hget, heq⟩
    · simp at h
      subst h
      exact ⟨p, rfl, hc⟩
    · simp at h

theorem binarySearch_err_not_found :
    ∀ (l : List PeerEntry) (q : PeerEntry) (i : Nat),
      PeersSorted l → binarySearch l q = .error i →
      ∀ p ∈ l, PeerEntry.cmp p q ≠ .eq := by
  intro l
  induction l with
  | nil => intro q i _ _ p hp; simp at hp
  | cons p rest ih =>
    intro q i hs h x hx
    unfold PeersSorted at hs
    rw [List.pairwise_cons] at hs
    unfold binarySearch at h
    rcases hc : PeerEntry.cmp p q with _ | _ | _ <;> rw [hc] at h
    · rcases hr : binarySearch rest q with j | j <;> rw [hr] at h <;> simp at h
      rcases List.mem_cons.mp hx with rfl | hx2
      · simp [hc]
      · exact ih q j hs.2 hr x hx2
    · simp at h
    · rcases List.mem_cons.mp hx with rfl | hx2
      · simp [hc]
      · intro heq
        have hpx : peerBelow p x := cmp_lt_iff.mp (hs.1 x hx2)
        have hqp : peerBelow q p := cmp_gt_iff.mp hc
        have hqx : peerBelow q x := peerBelow_trans hqp hpx
        have : PeerEntry.cmp x q = .gt := cmp_gt_iff.mpr hqx
        rw [heq] at this
        cases this

theorem binarySearch_found_of_mem :
    ∀ (l : List PeerEntry) (q p : PeerEntry),
      PeersSorted l → p ∈ l → PeerEntry.cmp p q = .eq →
      ∃ i, binarySearch l q = .ok i := by
  intro l q p hs hp heq
  rcases hb : binarySearch l q with i | i
  · exact absurd heq (binarySearch_err_not_found l q i hs hb p hp)
  · exact ⟨i, rfl⟩

theorem sorted_insertIdx :
    ∀ (l : List PeerEntry) (q : PeerEntry) (i : Nat),
      PeersSorted l → binarySearch l q = .error i → PeersSorted (l.insertIdx i q) := by
  intro l
  induction l with
  | nil =>
    intro q i _ h
    simp [binarySearch] at h
    subst h
    exact List.pairwise_singleton _ _
  | cons p rest ih =>
    intro q i hs h
    unfold PeersSorted at hs
    rw [List.pairwise_cons] at hs
    unfold binarySearch at h
    rcases hc : PeerEntry.cmp p q with _ | _ | _ <;> rw [hc] at h
    · rcases hr : binarySearch rest q with j | j <;> rw [hr] at h <;> simp at h
      subst h
      have hj := binarySearch_err_bound rest q j hr
      rw [List.insertIdx_succ_cons]
      unfold PeersSorted
      rw [List.pairwise_cons]
      constructor
      · intro x hx
        rcases (List.mem_insertIdx hj).mp hx with rfl | hx2
        · exact hc
        · exact hs.1 x hx2
      · exact ih q j hs.2 hr
    · simp at h
    · simp at h
      subst h
      rw [List.insertIdx_zero]
      unfold PeersSorted
      rw [List.pairwise_cons]
      constructor
      · intro x hx
        rcases List.mem_cons.mp hx with rfl | hx2
        · exact cmp_lt_iff.mpr (cmp_gt_iff.mp hc)
        · exact cmp_lt_iff.mpr
            (peerBelow_trans (cmp_gt_iff.mp hc) (cmp_lt_iff.mp (hs.1 x hx2)))
      · exact List.Pairwise.cons hs.1 hs.2

theorem sorted_set_eq_key :
    ∀ (l : List PeerEntry) (i : Nat) (p q : PeerEntry),
      PeersSorted l → l.get? i = some p → PeerEntry.cmp p q = .eq →
      PeersSorted (l.set i q) := by
  intro l
  induction l with
  | nil => intro i p q _ hget _; simp at hget
  | cons x rest ih =>
    intro i p q hs hget heq
    unfold PeersSorted at hs
    rw [List.pairwise_cons] at hs
    cases i with
    | zero =>
      rw [List.get?_cons_zero] at hget
      have hxp := Option.some.inj hget
      subst hxp
      rw [List.set_cons_zero]
      unfold PeersSorted
      rw [List.pairwise_cons]
      exact ⟨fun y hy => (cmp_congr_left heq).symm.trans (hs.1 y hy), hs.2⟩
    | succ j =>
      rw [List.get?_cons_succ] at hget
      rw [List.set_cons_succ]
      unfold PeersSorted
      rw [List.pairwise_cons]
      constructor
      · intro y hy
        rcases List.mem_or_eq_of_mem_set hy with hy2 | rfl
        · exact hs.1 y hy2
        · have hp : p ∈ rest := List.get?_mem hget
          exact (cmp_congr_right heq).symm.trans ((cmp_congr_right heq) ▸ hs.1 p hp)
      · exact ih j p q hs.2 hget heq

/-! Association-list facts for the `HashMap` model. -/

theorem mapLookup_nil {α : Type} (k : NodeId) : mapLookup (α := α) k [] = none := rfl

theorem mapLookup_cons {α : Type} (k : NodeId) (k2 : NodeId) (v : α) (m : List (NodeId × α)) :
    mapLookup k ((k2, v) :: m) = if k2 = k then some v else mapLookup k m := by
  unfold mapLookup
  rcases h : decide (k2 = k) with _ | _
  · simp [List.find?] at h ⊢
    simp [h]
  · simp [List.find?] at h ⊢
    simp [h]

theorem mapLookup_append_left {α : Type} (k : NodeId) (m l2 : List (NodeId × α)) (v : α)
    (hm : mapLookup k m = some v) : mapLookup k (m ++ l2) = some v := by
  induction m with
  | nil => rw [mapLookup_nil] at hm; cases hm
  | cons kv rest ih =>
    rw [show kv = (kv.1, kv.2) from rfl, mapLookup_cons] at hm
    rw [List.cons_append, show kv = (kv.1, kv.2) from rfl, mapLookup_cons]
    by_cases h : kv.1 = k
    · rw [if_pos h] at hm
      rwa [if_pos h]
    · rw [if_neg h] at hm
      rw [if_neg h]
      exact ih hm

theorem mapLookup_append_right {α : Type} (k : NodeId) (m l2 : List (NodeId × α))
    (hm : mapLookup k m = none) : mapLookup k (m ++ l2) = mapLookup k l2 := by
  induction m with
  | nil => rfl
  | cons kv rest ih =>
    rw [show kv = (kv.1, kv.2) from rfl, mapLookup_cons] at hm
    rw [List.cons_append, show kv = (kv.1, kv.2) from rfl, mapLookup_cons]
    by_cases h : kv.1 = k
    · rw [if_pos h] at hm; cases hm
    · rw [if_neg h] at hm
      rw [if_neg h]
      exact ih hm

theorem mapLookup_mapSet_self {α : Type} (k : NodeId) (v v0 : α) (m : List (NodeId × α))
    (hm : mapLookup k m = some v0) : mapLookup k (mapSet k v m) = some v := by
  induction m with
  | nil => rw [mapLookup_nil] at hm; cases hm
  | cons kv rest ih =>
    rw [show kv = (kv.1, kv.2) from rfl, mapLookup_cons] at hm
    unfold mapSet
    rw [List.map_cons]
    by_cases h : kv.1 = k
    · rw [if_pos h, mapLookup_cons, if_pos rfl]
    · rw [if_neg h, mapLookup_cons, if_neg h]
      rw [if_neg h] at hm
      exact ih hm

theorem mapSet_of_lookup_none {α : Type} (k : NodeId) (v : α) (m : List (NodeId × α))
    (hm : mapLookup k m = none) : mapSet k v m = m := by
  induction m with
  | nil => rfl
  | cons kv rest ih =>
    rw [show kv = (kv.1, kv.2) from rfl, mapLookup_cons] at hm
    unfold mapSet
    rw [List.map_cons]
    by_cases h : kv.1 = k
    · rw [if_pos h] at hm; cases hm
    · rw [if_neg h] at hm
      rw [if_neg h]
      exact congrArg _ (ih hm)

theorem mapLookup_mapSet_other {α : Type} (k k2 : NodeId) (v : α) (m : List (NodeId × α))
    (hne : k2 ≠ k) : mapLookup k2 (mapSet k v m) = mapLookup k2 m := by
  induction m with
  | nil => rfl
  | cons kv rest ih =>
    unfold mapSet
    rw [List.map_cons]
    by_cases h : kv.1 = k
    · rw [if_pos h, mapLookup_cons]
      rw [show kv = (kv.1, kv.2) from rfl, mapLookup_cons, h]
      rw [if_neg (fun he => hne he.symm), if_neg (fun he => hne he.symm)]
      exact ih
    · rw [if_neg h, mapLookup_cons]
      rw [show kv = (kv.1, kv.2) from rfl, mapLookup_cons]
      by_cases h2 : kv.1 = k2
      · rw [if_pos h2, if_pos h2]
      · rw [if_neg h2, if_neg h2]
        exact ih

theorem mapSet_length {α : Type} (k : NodeId) (v : α) (m : List (NodeId × α)) :
    (mapSet k v m).length = m.length := List.length_map _ _

theorem mapLookup_not_mem {α : Type} (k : NodeId) (m : List (NodeId × α))
    (h : k ∉ m.map Prod.fst) : mapLookup k m = none := by
  induction m with
  | nil => rfl
  | cons kv rest ih =>
    rw [List.map_cons, List.mem_cons] at h
    push_neg at h
    rw [show kv = (kv.1, kv.2) from rfl, mapLookup_cons, if_neg (fun he => h.1 he.symm)]
    exact ih h.2

theorem mapLookup_erase_self {α : Type} (k : NodeId) (m : List (NodeId × α))
    (hnd : (m.map Prod.fst).Nodup) : mapLookup k (mapErase k m) = none := by
  induction m with
  | nil => rfl
  | cons kv rest ih =>
    rw [List.map_cons, List.nodup_cons] at hnd
    unfold mapErase at ih ⊢
    by_cases h : kv.1 = k
    · rw [List.eraseP_cons_of_pos (by simp [h])]
      subst h
      exact mapLookup_not_mem kv.1 rest hnd.1
    · rw [List.eraseP_cons_of_neg (by simp [h])]
      rw [show kv = (kv.1, kv.2) from rfl, mapLookup_cons, if_neg h]
      exact ih hnd.2

/-- A sorted peer list holds at most one entry per `(ip, port)` key. -/
theorem sorted_key_unique {l : List PeerEntry} {p p2 q : PeerEntry}
    (hs : PeersSorted l) (hp : p ∈ l) (hp2 : p2 ∈ l)
    (he : PeerEntry.cmp p q = .eq) (he2 : PeerEntry.cmp p2 q = .eq) : p = p2 := by
  induction l with
  | nil => cases hp
  | cons x rest ih =>
    unfold PeersSorted at hs
    rw [List.pairwise_cons] at hs
    rcases List.mem_cons.mp hp with rfl | hpr <;> rcases List.mem_cons.mp hp2 with rfl | hp2r
    · rfl
    · exfalso
      have h1 : PeerEntry.cmp p p2 = .lt := hs.1 p2 hp2r
      have h2 : PeerEntry.cmp p p2 = .eq := ((cmp_congr_right he2).trans he : _)
      rw [h1] at h2
      cases h2
    · exfalso
      have h1 : PeerEntry.cmp p2 p = .lt := hs.1 p hpr
      have h2 : PeerEntry.cmp p2 p = .eq := ((cmp_congr_right he).trans he2 : _)
      rw [h1] at h2
      cases h2
    · exact ih hs.2 hpr hp2r

theorem announceInto_result (st : DefaultDhtStorage) (h : NodeId) (v : TorrentEntry)
    (ep : SocketAddr) (nm : String) (sd : Bool) (now : Nat) :
    ∃ v2 : TorrentEntry,
      (announceInto st h v ep nm sd now).map = mapSet h v2 st.map ∧
      (announceInto st h v ep nm sd now).settings = st.settings ∧
      (PeersSorted v.peers4 → PeersSorted v.peers6 →
        PeersSorted v2.peers4 ∧ PeersSorted v2.peers6) := by
  unfold announceInto
  set v1 := if nm ≠ "" ∧ v.name = "" then { v with name := String.mk (nm.data.take 100) } else v
    with hv1
  have hp4 : v1.peers4 = v.peers4 := by rw [hv1]; split <;> rfl
  have hp6 : v1.peers6 = v.peers6 := by rw [hv1]; split <;> rfl
  set pv := if ep.v4 then v1.peers4 else v1.peers6 with hpv
  set peer : PeerEntry := { added := now, addr := ep, seed := sd } with hpeer
  have hpv_sorted : PeersSorted v.peers4 → PeersSorted v.peers6 → PeersSorted pv := by
    intro h4 h6
    rw [hpv, hp4, hp6]
    split <;> assumption
  rcases hbs : binarySearch pv peer with i | i
  -- insertion-point case
  · simp only [hbs]
    by_cases hcap : pv.length ≥ st.settings.maxPeers
    · rw [if_pos hcap]
      refine ⟨_, rfl, rfl, ?_⟩
      intro h4 h6
      by_cases hv4 : ep.v4 = true
      · rw [if_pos hv4]
        exact ⟨hpv_sorted h4 h6, by rw [show v1.peers6 = v.peers6 from hp6]; exact h6⟩
      · rw [if_neg hv4]
        exact ⟨by rw [show v1.peers4 = v.peers4 from hp4]; exact h4, hpv_sorted h4 h6⟩
    · rw [if_neg hcap]
      refine ⟨_, rfl, rfl, ?_⟩
      intro h4 h6
      have hins : PeersSorted (pv.insertIdx i peer) :=
        sorted_insertIdx pv peer i (hpv_sorted h4 h6) hbs
      by_cases hv4 : ep.v4 = true
      · rw [if_pos hv4]
        exact ⟨hins, by rw [show v1.peers6 = v.peers6 from hp6]; exact h6⟩
      · rw [if_neg hv4]
        exact ⟨by rw [show v1.peers4 = v.peers4 from hp4]; exact h4, hins⟩
  -- found case
  · simp only [hbs]
    obtain ⟨p2, hget, heq⟩ := binarySearch_ok_get pv peer i hbs
    have hgetD : pv.getD i peer = p2 := by
      rw [List.getD_eq_getD_get?, hget]
      rfl
    have haddr : (pv.getD i peer).addr = ep := by
      rw [hgetD]
      have h2 := addr_eq_of_cmp_eq heq
      rw [h2, hpeer]
    rw [if_pos haddr]
    refine ⟨_, rfl, rfl, ?_⟩
    intro h4 h6
    have hset : PeersSorted (pv.set i peer) :=
      sorted_set_eq_key pv i p2 peer (hpv_sorted h4 h6) hget heq
    by_cases hv4 : ep.v4 = true
    · rw [if_pos hv4]
      exact ⟨hset, by rw [show v1.peers6 = v.peers6 from hp6]; exact h6⟩
    · rw [if_neg hv4]
      exact ⟨by rw [show v1.peers4 = v.peers4 from hp4]; exact h4, hset⟩

theorem announceInto_preserves (st : DefaultDhtStorage) (h : NodeId) (v : TorrentEntry)
    (ep : SocketAddr) (nm : String) (sd : Bool) (now : Nat) (hs : StorageSorted st)
    (hv4 : PeersSorted v.peers4) (hv6 : PeersSorted v.peers6) :
    StorageSorted (announceInto st h v ep nm sd now) := by
  obtain ⟨v2, hmap, _, hsor⟩ := announceInto_result st h v ep nm sd now
  intro h2 e he
  rw [hmap] at he
  by_cases heq : h2 = h
  · subst heq
    rcases hl0 : mapLookup h2 st.map with _ | v0
    · rw [mapSet_of_lookup_none _ _ _ hl0, hl0] at he
      cases he
    · rw [mapLookup_mapSet_self h2 v2 v0 st.map hl0] at he
      cases he
      exact hsor hv4 hv6
  · rw [mapLookup_mapSet_other _ _ _ _ heq] at he
    exact hs h2 e he

theorem announcePeer_preserves (st : DefaultDhtStorage) (h : NodeId) (ep : SocketAddr)
    (nm : String) (sd : Bool) (now : Nat) (hs : StorageSorted st) :
    StorageSorted (st.announcePeer h ep nm sd now) := by
  unfold DefaultDhtStorage.announcePeer
  rcases hl : mapLookup h st.map with _ | v
  · simp only [hl]
    by_cases hcap : st.map.length > st.settings.maxTorrents
    · rw [if_pos hcap]
      exact hs
    · rw [if_neg hcap]
      apply announceInto_preserves
      · intro h2 e he
        show _ ∧ _
        rcases hl2 : mapLookup h2 st.map with _ | v0
        · rw [show ({ st with
              counters := { st.counters with torrents := st.counters.torrents + 1 },
              map := st.map ++ [(h, ({} : TorrentEntry))] } : DefaultDhtStorage).map =
                st.map ++ [(h, ({} : TorrentEntry))] from rfl,
            mapLookup_append_right _ _ _ hl2, mapLookup_cons] at he
          by_cases hh : h = h2
          · rw [if_pos hh] at he
            cases he
            exact ⟨List.Pairwise.nil, List.Pairwise.nil⟩
          · rw [if_neg hh, mapLookup_nil] at he
            cases he
        · rw [show ({ st with
              counters := { st.counters with torrents := st.counters.torrents + 1 },
              map := st.map ++ [(h, ({} : TorrentEntry))] } : DefaultDhtStorage).map =
                st.map ++ [(h, ({} : TorrentEntry))] from rfl,
            mapLookup_append_left _ _ _ _ hl2] at he
          cases he
          exact hs h2 e hl2
      · exact List.Pairwise.nil
      · exact List.Pairwise.nil
  · simp only [hl]
    exact announceInto_preserves st h v ep nm sd now hs (hs h v hl).1 (hs h v hl).2

theorem announceInto_update_in_place (st : DefaultDhtStorage) (h : NodeId) (v : TorrentEntry)
    (ep : SocketAddr) (nm : String) (sd : Bool) (now : Nat) (p : PeerEntry)
    (hsorted : PeersSorted (if ep.v4 then v.peers4 else v.peers6))
    (hmem : p ∈ (if ep.v4 then v.peers4 else v.peers6))
    (haddr : p.addr = ep) :
    ∃ i v2,
      (if ep.v4 then v.peers4 else v.peers6).get? i = some p ∧
      (announceInto st h v ep nm sd now).map = mapSet h v2 st.map ∧
      (if ep.v4 then v2.peers4 else v2.peers6) =
        (if ep.v4 then v.peers4 else v.peers6).set i ⟨now, ep, sd⟩ := by
  unfold announceInto
  set v1 := if nm ≠ "" ∧ v.name = "" then { v with name := String.mk (nm.data.take 100) } else v
    with hv1
  have hp4 : v1.peers4 = v.peers4 := by rw [hv1]; split <;> rfl
  have hp6 : v1.peers6 = v.peers6 := by rw [hv1]; split <;> rfl
  set pv := if ep.v4 = true then v1.peers4 else v1.peers6 with hpv
  set peer : PeerEntry := { added := now, addr := ep, seed := sd } with hpeer
  have hpv_eq : pv = if ep.v4 = true then v.peers4 else v.peers6 := by
    rw [hpv]
    by_cases hv4 : ep.v4 = true
    · rw [if_pos hv4, if_pos hv4, hp4]
    · rw [if_neg hv4, if_neg hv4, hp6]
  have hsp : PeersSorted pv := by rw [hpv_eq]; exact hsorted
  have hmp : p ∈ pv := by rw [hpv_eq]; exact hmem
  have hcmp : PeerEntry.cmp p peer = .eq := cmp_of_addr_eq (by rw [haddr, hpeer])
  obtain ⟨i, hbs⟩ := binarySearch_found_of_mem pv peer p hsp hmp hcmp
  obtain ⟨p2, hget, heq2⟩ := binarySearch_ok_get pv peer i hbs
  have hp2 : p2 = p := sorted_key_unique hsp (List.get?_mem hget) hmp heq2 hcmp
  subst hp2
  have hgetD : pv.getD i peer = p2 := by
    rw [List.getD_eq_getD_get?, hget]
    rfl
  have hgaddr : (pv.getD i peer).addr = ep := by rw [hgetD, haddr]
  simp only [hbs]
  rw [if_pos hgaddr]
  refine ⟨i, _, ?_, rfl, ?_⟩
  · rw [← hpv_eq]
    exact hget
  · by_cases hv4 : ep.v4 = true
    · rw [if_pos hv4, if_pos hv4]
      show pv.set i peer = _
      rw [hpv_eq, if_pos hv4]
    · rw [if_neg hv4, if_neg hv4]
      show pv.set i peer = _
      rw [hpv_eq, if_neg hv4]

/-- **C8.** After any sequence of `announce_peer` calls (from any state whose
entries satisfy the invariant, in particular from the empty storage), every
torrent's per-family peer list is sorted by `(ip, port)` with no duplicate
`(ip, port)` (strict sortedness), and an announce for an `(ip, port)` already
present on the same infohash replaces that single entry in place with the new
record — in particular the `added` timestamp becomes the announce time. -/
theorem c8_announce_peer_sorted_dedup :
    (∀ (st0 : DefaultDhtStorage), StorageSorted st0 → ∀ (calls : List AnnounceCall),
        StorageSorted (applyAnnounces calls st0)) ∧
    (∀ (st : DefaultDhtStorage) (h : NodeId) (v : TorrentEntry) (p : PeerEntry)
        (ep : SocketAddr) (nm : String) (sd : Bool) (now : Nat),
        StorageSorted st →
        mapLookup h st.map = some v →
        p ∈ (if ep.v4 then v.peers4 else v.peers6) →
        p.addr = ep →
        ∃ i v2,
          (if ep.v4 then v.peers4 else v.peers6).get? i = some p ∧
          mapLookup h (st.announcePeer h ep nm sd now).map = some v2 ∧
          (if ep.v4 then v2.peers4 else v2.peers6) =
            (if ep.v4 then v.peers4 else v.peers6).set i ⟨now, ep, sd⟩) := by
  constructor
  · intro st0 hs calls
    induction calls generalizing st0 with
    | nil => exact hs
    | cons c rest ih =>
      exact ih _ (announcePeer_preserves st0 c.infoHash c.endpoint c.name c.seed c.now hs)
  · intro st h v p ep nm sd now hs hl hmem haddr
    have hsorted : PeersSorted (if ep.v4 then v.peers4 else v.peers6) := by
      by_cases hv4 : ep.v4 = true
      · rw [if_pos hv4]; exact (hs h v hl).1
      · rw [if_neg hv4]; exact (hs h v hl).2
    obtain ⟨i, v2, hget, hmap, hlist⟩ :=
      announceInto_update_in_place st h v ep nm sd now p hsorted hmem haddr
    refine ⟨i, v2, hget, ?_, hlist⟩
    unfold DefaultDhtStorage.announcePeer
    simp only [hl]
    rw [hmap]
    exact mapLookup_mapSet_self h v2 v st.map hl

/-- **C10.** `announce_peer` with an absent infohash drops the announce only
when the torrent map holds strictly more than `max_torrents` entries (the code
checks `map.len() > max_torrents`), and creates a new entry whenever the map
holds at most `max_torrents` entries — so the map length can reach
`max_torrents + 1`. -/
theorem c10_announce_peer_create_condition :
    ∀ (st : DefaultDhtStorage) (h : NodeId) (ep : SocketAddr) (nm : String)
      (sd : Bool) (now : Nat),
      mapLookup h st.map = none →
      ((st.map.length > st.settings.maxTorrents → st.announcePeer h ep nm sd now = st) ∧
       (st.map.length ≤ st.settings.maxTorrents →
          (mapLookup h (st.announcePeer h ep nm sd now).map).isSome = true ∧
          (st.announcePeer h ep nm sd now).map.length = st.map.length + 1)) := by
  intro st h ep nm sd now hl
  unfold DefaultDhtStorage.announcePeer
  simp only [hl]
  constructor
  · intro hcap
    rw [if_pos hcap]
  · intro hcap
    rw [if_neg (by omega)]
    obtain ⟨v2, hmap, _, _⟩ := announceInto_result { st with
      counters := { st.counters with torrents := st.counters.torrents + 1 },
      map := st.map ++ [(h, ({} : TorrentEntry))] } h {} ep nm sd now
    rw [hmap]
    have hl1 : mapLookup h (st.map ++ [(h, ({} : TorrentEntry))]) = some {} := by
      rw [mapLookup_append_right _ _ _ hl, mapLookup_cons, if_pos rfl]
    constructor
    · rw [mapLookup_mapSet_self h v2 {} _ hl1]
      rfl
    · rw [mapSet_length]
      show (st.map ++ [(h, ({} : TorrentEntry))]).length = _
      rw [List.length_append]
      rfl

/-- The value `get_peers` returns when a torrent entry exists, characterized on
a sorted peer list: true iff the list has reached `max_peers` AND the
requester's address is not recorded in it. -/
theorem getPeers_return_spec (mp : Nat) (pv : List PeerEntry) (req : SocketAddr) (now : Nat)
    (hsorted : PeersSorted pv) :
    ((if pv.length < mp then false
      else
        match binarySearch pv { added := now, addr := req, seed := false } with
        | .ok i =>
          decide ((pv.getD i { added := now, addr := req, seed := false }).addr ≠ req)
        | .error _ => true) = true ↔
      (mp ≤ pv.length ∧ ∀ p ∈ pv, p.addr ≠ req)) := by
  by_cases hlen : pv.length < mp
  · rw [if_pos hlen]
    constructor
    · intro hfalse
      cases hfalse
    · intro hand
      omega
  · rw [if_neg hlen]
    rcases hbs : binarySearch pv { added := now, addr := req, seed := false } with i | i
    · constructor
      · intro _
        refine ⟨by omega, ?_⟩
        intro p hp haddr
        exact binarySearch_err_not_found pv _ i hsorted hbs p hp (cmp_of_addr_eq haddr)
      · intro _
        rfl
    · obtain ⟨p2, hget, heq⟩ := binarySearch_ok_get pv _ i hbs
      have hgetD : pv.getD i { added := now, addr := req, seed := false } = p2 := by
        rw [List.getD_eq_getD_get?, hget]
        rfl
      have haddr2 : p2.addr = req := addr_eq_of_cmp_eq heq
      show decide ((pv.getD i { added := now, addr := req, seed := false }).addr ≠ req) = true ↔ _
      rw [hgetD]
      constructor
      · intro hdec
        rw [haddr2] at hdec
        simp at hdec
      · intro hand
        exact absurd haddr2 (hand.2 p2 (List.get?_mem hget))

/-- **C2 (amended).** `get_peers`: when no entry exists for the infohash, the
return value is `len(map) ≥ max_torrents` (as the claim says); when an entry
exists, the code returns FALSE whenever the peer list is below `max_peers`
capacity, and at capacity it returns whether the requester's `(ip, port)` is
NOT already recorded — the opposite capacity condition from the claim. -/
theorem c2_get_peers_admission :
    (∀ (st : DefaultDhtStorage) (ipHash : Bool × Nat → List Nat) (h : NodeId)
        (ns sc : Bool) (req : SocketAddr) (d : Bencode.Value) (rand : List Nat) (now : Nat)
        (res : Bencode.Value × Bool),
        st.getPeers ipHash h ns sc req d rand now = some (.ok res) →
        mapLookup h st.map = none →
        res.2 = decide (st.settings.maxTorrents ≤ st.map.length)) ∧
    (∀ (st : DefaultDhtStorage) (ipHash : Bool × Nat → List Nat) (h : NodeId)
        (ns sc : Bool) (req : SocketAddr) (d : Bencode.Value) (rand : List Nat) (now : Nat)
        (res : Bencode.Value × Bool) (v : TorrentEntry),
        st.getPeers ipHash h ns sc req d rand now = some (.ok res) →
        mapLookup h st.map = some v →
        PeersSorted (if req.v4 then v.peers4 else v.peers6) →
        (res.2 = true ↔
          st.settings.maxPeers ≤ (if req.v4 then v.peers4 else v.peers6).length ∧
          ∀ p ∈ (if req.v4 then v.peers4 else v.peers6), p.addr ≠ req)) := by
  constructor
  · intro st ipHash h ns sc req d rand now res hrun hl
    unfold DefaultDhtStorage.getPeers at hrun
    rw [hl] at hrun
    replace hrun := Except.ok.inj (Option.some.inj hrun)
    rw [← hrun]
  · intro st ipHash h ns sc req d rand now res v hrun hl hsorted
    unfold DefaultDhtStorage.getPeers at hrun
    rw [hl] at hrun
    have hspec := getPeers_return_spec st.settings.maxPeers
      (if req.v4 then v.peers4 else v.peers6) req now hsorted
    rcases d with n | s | l | m
    · cases hrun
    · cases hrun
    · cases hrun
    · simp only at hrun
      by_cases hsc : sc = true
      · rw [if_pos hsc] at hrun
        replace hrun := Except.ok.inj (Option.some.inj hrun)
        rw [← hrun]
        exact hspec
      · rw [if_neg hsc] at hrun
        rcases hbf : btreeFind [118, 97, 108, 117, 101, 115]
            (if v.name ≠ "" then
              Bencode.btreeInsert [110] (.str (strUtf8 v.name)) m
            else m) with _ | vv
        · rw [hbf] at hrun
          cases hrun
        · rw [hbf] at hrun
          rcases vv with n2 | s2 | pe | m2
          · cases hrun
          · cases hrun
          · rcases hsp : samplePeers (if req.v4 then v.peers4 else v.peers6)
                (min
                  (if ¬ (if req.v4 then v.peers4 else v.peers6).isEmpty ∧ ¬ req.v4 then
                    st.settings.maxPeersReply / 4
                  else st.settings.maxPeersReply)
                  ((if req.v4 then v.peers4 else v.peers6).filter
                    (fun p => ¬ (ns ∧ p.seed))).length)
                ((if req.v4 then v.peers4 else v.peers6).filter
                  (fun p => ¬ (ns ∧ p.seed))).length rand ns [] with _ | picked
            · rw [hsp] at hrun
              cases hrun
            · rw [hsp] at hrun
              replace hrun := Except.ok.inj (Option.some.inj hrun)
              rw [← hrun]
              exact hspec
          · cases hrun

/-- **C2 (counterexample).** The claim: `get_peers` returns true iff the
requester is not already recorded AND the peer list is below `max_peers`.
Here the entry exists, its peer list is empty (surely below the 500 default
capacity) and the requester is not recorded — yet the code returns `false`,
because it returns `Ok(false)` whenever `peersv.len() < max_peers`. -/
theorem c2_counterexample_below_capacity :
    stC2.getPeers (fun _ => List.replicate 20 0) hashC2 false true ⟨true, 7, 7⟩
        (.dict []) [] 0 =
      some (.ok (.dict [([66, 70, 112, 101], .str (List.replicate 256 0)),
                        ([66, 70, 115, 100], .str (List.replicate 256 0))], false)) ∧
    0 < stC2.settings.maxPeers :=
  ⟨rfl, by decide⟩

/-- Witness for C2: the amended characterization applied at the concrete
state of the counterexample (return value `false`, and indeed the capacity
condition `maxPeers ≤ 0` fails). -/
theorem c2_witness_concrete :
    ((false : Bool) = true ↔
      stC2.settings.maxPeers ≤
          (if (⟨true, 7, 7⟩ : SocketAddr).v4 then ({} : TorrentEntry).peers4
           else ({} : TorrentEntry).peers6).length ∧
        ∀ p ∈ (if (⟨true, 7, 7⟩ : SocketAddr).v4 then ({} : TorrentEntry).peers4
               else ({} : TorrentEntry).peers6), p.addr ≠ ⟨true, 7, 7⟩) :=
  c2_get_peers_admission.2 stC2 (fun _ => List.replicate 20 0) hashC2 false true
    ⟨true, 7, 7⟩ (.dict []) [] 0
    (.dict [([66, 70, 112, 101], .str (List.replicate 256 0)),
            ([66, 70, 115, 100], .str (List.replicate 256 0))], false)
    {} rfl rfl List.Pairwise.nil

theorem pickLeastImp_foldl_min {α : Type} (ids : List NodeId) (numAnn : α → Nat) :
    ∀ (table : List (NodeId × α)) (acc : Option (NodeId × α)) (res : NodeId × α),
      table.foldl
        (fun acc kv =>
          match acc with
          | none => some kv
          | some best =>
            if wscore ids kv.1 (numAnn kv.2) < wscore ids best.1 (numAnn best.2) then some kv
            else some best) acc = some res →
      (∀ kv ∈ table, wscore ids res.1 (numAnn res.2) ≤ wscore ids kv.1 (numAnn kv.2)) ∧
      (∀ a, acc = some a → wscore ids res.1 (numAnn res.2) ≤ wscore ids a.1 (numAnn a.2)) := by
  intro table
  induction table with
  | nil =>
    intro acc res h
    rw [List.foldl_nil] at h
    refine ⟨fun kv hkv => absurd hkv (List.not_mem_nil kv), ?_⟩
    intro a ha
    rw [ha] at h
    cases h
    exact Nat.le_refl _
  | cons kv2 rest ih =>
    intro acc res h
    rw [List.foldl_cons] at h
    obtain ⟨hall, hacc⟩ := ih _ res h
    constructor
    · intro kv hkv
      rcases List.mem_cons.mp hkv with rfl | hkv2
      · rcases acc with _ | a
        · exact hacc kv (rfl : some kv = some kv)
        · by_cases hlt : wscore ids kv.1 (numAnn kv.2) < wscore ids a.1 (numAnn a.2)
          · exact hacc kv (by simp [hlt])
          · have h1 := hacc a (by simp [hlt])
            omega
      · exact hall kv hkv2
    · intro a ha
      subst ha
      by_cases hlt : wscore ids kv2.1 (numAnn kv2.2) < wscore ids a.1 (numAnn a.2)
      · have h1 := hacc kv2 (by simp [hlt])
        omega
      · exact hacc a (by simp [hlt])

/-- **C7 (amended).** Eviction minimizes the `usize` score: `pick_least_imp`
returns an entry whose wrapping score `announcers / 5 -. min_distance_exp`
(64-bit wrap-around subtraction) is minimal over the table, and a
`put_immutable_item` on a full table removes exactly that entry
(`min_distance_exp` modelled from the spec, see `minDistanceExp`). -/
theorem c7_pick_least_imp_wrapping_min :
    (∀ (ids : List NodeId) (table : List (NodeId × DhtImmutableItem)) (k : NodeId)
        (t : DhtImmutableItem),
        pickLeastImp ids (fun x => x.numAnnouncers) table = some (k, t) →
        ∀ kv ∈ table, wscore ids k t.numAnnouncers ≤ wscore ids kv.1 kv.2.numAnnouncers) ∧
    (∀ (st : DefaultDhtStorage) (target : NodeId) (item iph : List Nat) (now : Nat)
        (k : NodeId) (it : DhtImmutableItem),
        mapLookup target st.immutableTable = none →
        st.immutableTable.length ≥ st.settings.maxDhtItems →
        pickLeastImp st.nodeIds (fun x => x.numAnnouncers) st.immutableTable = some (k, it) →
        (st.immutableTable.map Prod.fst).Nodup →
        k ≠ target →
        ∃ st2, st.putImmutableItem target item iph now = some st2 ∧
          mapLookup k st2.immutableTable = none) := by
  constructor
  · intro ids table k t h kv hkv
    unfold pickLeastImp at h
    exact (pickLeastImp_foldl_min ids (fun x => x.numAnnouncers) table none (k, t) h).1 kv hkv
  · intro st target item iph now k it habs hfull hpick hknd hne
    unfold DefaultDhtStorage.putImmutableItem
    rw [habs]
    rw [if_pos hfull, hpick]
    refine ⟨_, rfl, ?_⟩
    rw [mapLookup_mapSet_other _ _ _ _ hne,
      mapLookup_append_right _ _ _ (mapLookup_erase_self k _ hknd),
      mapLookup_cons, if_neg (fun he => hne he.symm), mapLookup_nil]

/-- Witness for C7: the amended statement applied at the concrete eviction
scenario (the put on the full two-entry table removes the picked key A). -/
theorem c7_witness_concrete :
    ∃ st2, stC7.putImmutableItem (List.replicate 20 7) [105, 51, 101]
        (List.replicate 20 9) 5 = some st2 ∧
      mapLookup (List.replicate 20 0) st2.immutableTable = none :=
  c7_pick_least_imp_wrapping_min.2 stC7 (List.replicate 20 7) [105, 51, 101]
    (List.replicate 20 9) 5 (List.replicate 20 0) itemC7A
    (by decide) (by decide) (by decide) (by decide) (by decide)

/-- Witness for C8: the in-place-update statement applied at a concrete state
(a second announce for the same `(ip, port)` replaces the single entry with
the new seed flag and timestamp 9). -/
theorem c8_witness_concrete :
    ∃ i v2,
      (if (⟨true, 5, 5⟩ : SocketAddr).v4 then entryC8.peers4 else entryC8.peers6).get? i =
        some peerC8 ∧
      mapLookup hashC8 (stC8.announcePeer hashC8 ⟨true, 5, 5⟩ "" true 9).map = some v2 ∧
      (if (⟨true, 5, 5⟩ : SocketAddr).v4 then v2.peers4 else v2.peers6) =
        (if (⟨true, 5, 5⟩ : SocketAddr).v4 then entryC8.peers4 else entryC8.peers6).set i
          ⟨9, ⟨true, 5, 5⟩, true⟩ :=
  c8_announce_peer_sorted_dedup.2 stC8 hashC8 entryC8 peerC8 ⟨true, 5, 5⟩ "" true 9
    (by
      intro h e he
      rw [show stC8.map = [(hashC8, entryC8)] from rfl, mapLookup_cons] at he
      by_cases hh : hashC8 = h
      · rw [if_pos hh] at he
        cases he
        exact ⟨by decide, by decide⟩
      · rw [if_neg hh, mapLookup_nil] at he
        cases he)
    rfl (by decide) rfl

/-- Witness for C10: an announce for an absent infohash on a map already
holding exactly `max_torrents` entries creates the entry, growing the map to
`max_torrents + 1 = 2` entries. -/
theorem c10_witness_concrete :
    (mapLookup (List.replicate 20 5)
        ((stC10.announcePeer (List.replicate 20 5) ⟨true, 1, 1⟩ "" false 0).map)).isSome =
      true ∧
    (stC10.announcePeer (List.replicate 20 5) ⟨true, 1, 1⟩ "" false 0).map.length =
      stC10.map.length + 1 :=
  (c10_announce_peer_create_condition stC10 (List.replicate 20 5) ⟨true, 1, 1⟩ "" false 0
    (by decide)).2 (by decide)

end TorrentRs
